import Mathlib

/-! Verification development for `src/cppsim/circuit.cpp` (class `QuantumCircuit`).

The circuit is an ordered list of gates together with a fixed qubit count.
Gates, states, Pauli operators, Hamiltonians and the gate factory are external
to `circuit.cpp`; they are represented by the data the circuit code reads from
them.

Conventions of the embedding:

* `UINT` is the 32-bit unsigned integer: a `Nat` reduced modulo `2 ^ 32` after
  each addition.
* `std::vector::operator[]` outside the vector, and `insert` or `erase` at an
  iterator outside the vector, are undefined behaviour: the embedded function
  returns `none`.
* a failed `assert` is `none` as well; it occurs only in the ranged
  `update_quantum_state`.
* `double` arithmetic is not interpreted: the operations the code uses are the
  fields of `DoubleOps`.
-/

namespace Qulacs

/-- The modulus of `UINT` arithmetic (`unsigned int`, 32 bits). -/
def UINT_MOD : Nat := 2 ^ 32

/-- What `circuit.cpp` reads from a `QuantumGateBase`: the indices of the target
and control qubits, the three property queries, and the state update. -/
structure QuantumGateBase (S : Type) where
  target_qubit_list : List Nat
  control_qubit_list : List Nat
  is_Clifford : Bool
  is_Gaussian : Bool
  is_diagonal : Bool
  update_quantum_state : S → S

/-- The members of `QuantumCircuit`: `_qubit_count` and `_gate_list`. -/
structure QuantumCircuit (S : Type) where
  qubit_count : Nat
  gate_list : List (QuantumGateBase S)

/-- The `double` operations `circuit.cpp` uses, left uninterpreted: `*`, `/`,
the conversion of a `UINT` to `double`, the literal `100.`, `std::ceil`, and
the conversion `(UINT)` of a `double`, which is undefined (`none`) when the
truncated value is not a `UINT`. Multiplication of doubles is commutative. -/
structure DoubleOps (D : Type) where
  mul : D → D → D
  div : D → D → D
  ofUINT : Nat → D
  hundred : D
  ceil : D → D
  toUINT : D → Option Nat
  mul_comm : ∀ a b, mul a b = mul b a

/-- What `circuit.cpp` reads from a `PauliOperator`. -/
structure PauliOperator (D : Type) where
  index_list : List Nat
  pauli_id_list : List Nat
  coef : D

/-- What `circuit.cpp` reads from a `Hamiltonian`. -/
structure Hamiltonian (D : Type) where
  qubit_count : Nat
  terms : List (PauliOperator D)

namespace PauliOperator

variable {D : Type}

/-- The getter `get_index_list()`. -/
def get_index_list (p : PauliOperator D) : List Nat := p.index_list

/-- The getter `get_pauli_id_list()`. -/
def get_pauli_id_list (p : PauliOperator D) : List Nat := p.pauli_id_list

/-- The getter `get_coef()`. -/
def get_coef (p : PauliOperator D) : D := p.coef

end PauliOperator

namespace Hamiltonian

variable {D : Type}

/-- The getter `get_qubit_count()`. -/
def get_qubit_count (h : Hamiltonian D) : Nat := h.qubit_count

/-- The getter `get_terms()`. -/
def get_terms (h : Hamiltonian D) : List (PauliOperator D) := h.terms

end Hamiltonian

namespace QuantumGateBase

variable {S : Type}

/-- Every qubit index a gate refers to: targets first, then controls. -/
def qubits (g : QuantumGateBase S) : List Nat :=
  g.target_qubit_list ++ g.control_qubit_list

/-- Two gates share a qubit (target or control). -/
def shares (g h : QuantumGateBase S) : Prop :=
  ∃ q, q ∈ g.qubits ∧ q ∈ h.qubits

instance (g h : QuantumGateBase S) : Decidable (shares g h) :=
  decidable_of_iff (∃ q ∈ g.qubits, q ∈ h.qubits)
    ⟨fun ⟨q, a, b⟩ => ⟨q, a, b⟩, fun ⟨q, a, b⟩ => ⟨q, a, b⟩⟩

end QuantumGateBase

namespace QuantumCircuit

variable {S : Type}

/-- The constructor `QuantumCircuit(UINT qubit_count_)`: no gates. -/
def empty (qubit_count_ : Nat) : QuantumCircuit S :=
  { qubit_count := qubit_count_, gate_list := [] }

/-- The method `add_gate(gate)`: `push_back` on the gate list. -/
def add_gate (c : QuantumCircuit S) (gate : QuantumGateBase S) : QuantumCircuit S :=
  { c with gate_list := c.gate_list ++ [gate] }

/-- The two read loops of `calculate_depth` (lines 121-126): starting from
`m`, take the maximum with `filled_step[q]` for each listed qubit. -/
def max_step_among : List Nat → List Nat → Nat → Option Nat
  | _, [], m => some m
  | filled_step, q :: qs, m =>
    match filled_step[q]? with
    | none => none
    | some v => max_step_among filled_step qs (max m v)

/-- The two write loops of `calculate_depth` (lines 127-132): store `v` in
`filled_step[q]` for each listed qubit. -/
def fill_step : List Nat → List Nat → Nat → Option (List Nat)
  | filled_step, [], _ => some filled_step
  | filled_step, q :: qs, v =>
    if q < filled_step.length then fill_step (filled_step.set q v) qs v else none

/-- One iteration of the gate loop of `calculate_depth` (lines 120-133) on the
pair `(filled_step, total_max_step)`. -/
def depth_gate (st : List Nat × Nat) (gate : QuantumGateBase S) : Option (List Nat × Nat) :=
  match max_step_among st.1 gate.target_qubit_list 0 with
  | none => none
  | some m1 =>
    match max_step_among st.1 gate.control_qubit_list m1 with
    | none => none
    | some m =>
      match fill_step st.1 gate.target_qubit_list ((m + 1) % UINT_MOD) with
      | none => none
      | some fs1 =>
        match fill_step fs1 gate.control_qubit_list ((m + 1) % UINT_MOD) with
        | none => none
        | some fs2 => some (fs2, max st.2 ((m + 1) % UINT_MOD))

/-- The gate loop of `calculate_depth` (line 119). -/
def depth_loop : List (QuantumGateBase S) → List Nat × Nat → Option (List Nat × Nat)
  | [], st => some st
  | gate :: rest, st =>
    match depth_gate st gate with
    | none => none
    | some st1 => depth_loop rest st1

/-- The method `calculate_depth()`. -/
def calculate_depth (c : QuantumCircuit S) : Option Nat :=
  (depth_loop c.gate_list (List.replicate c.qubit_count 0, 0)).map Prod.snd

/-- Every qubit index of every gate is below `qubit_count`. -/
def indices_in_range (c : QuantumCircuit S) : Prop :=
  ∀ g ∈ c.gate_list, ∀ q ∈ g.qubits, q < c.qubit_count

/-- A dependency chain of a gate list: gates taken in sequence order, each
consecutive pair sharing a qubit. -/
def IsDependencyChain (gates chain : List (QuantumGateBase S)) : Prop :=
  chain.Sublist gates ∧ chain.Chain' QuantumGateBase.shares

/-- The state of `calculate_depth` after the gates `P`: each `filled_step[q]`
is the length of the longest dependency chain of `P` ending in a gate on `q`,
and `total_max_step` is the length of the longest dependency chain of `P`. -/
structure DepthInv (n : Nat) (P : List (QuantumGateBase S)) (fs : List Nat) (t : Nat) : Prop where
  len : fs.length = n
  reach : ∀ q, ∃ l, IsDependencyChain P l ∧ l.length = fs[q]?.getD 0 ∧
    ∀ h ∈ l.getLast?, q ∈ h.qubits
  bound : ∀ q l, IsDependencyChain P l → (∃ h ∈ l.getLast?, q ∈ h.qubits) →
    l.length ≤ fs[q]?.getD 0
  tot_reach : ∃ l, IsDependencyChain P l ∧ l.length = t
  tot_bound : ∀ l, IsDependencyChain P l → l.length ≤ t

/-- The method `is_Clifford()`: `flag = flag & gate->is_Clifford()` over the
gate list, starting from `true`. -/
def is_Clifford (c : QuantumCircuit S) : Bool :=
  c.gate_list.foldl (fun flag gate => flag && gate.is_Clifford) true

/-- The method `is_Gaussian()`: `flag = flag & gate->is_Gaussian()` over the
gate list, starting from `true`. -/
def is_Gaussian (c : QuantumCircuit S) : Bool :=
  c.gate_list.foldl (fun flag gate => flag && gate.is_Gaussian) true

/-- The method `update_quantum_state(state)`: every gate updates the state,
in list order. -/
def update_quantum_state (c : QuantumCircuit S) (state : S) : S :=
  c.gate_list.foldl (fun st gate => gate.update_quantum_state st) state

/-- The method `update_quantum_state(state, start, end)`: the two `assert`s,
then the loop `for (cursor = start; cursor < end; ++cursor)` applying
`_gate_list[cursor]`. -/
def update_quantum_state_range (c : QuantumCircuit S) (state : S) (start end_ : Nat) :
    Option S :=
  if ¬ start ≤ end_ then none
  else if ¬ end_ ≤ c.gate_list.length then none
  else
    (List.range' start (end_ - start)).foldlM
      (fun st cursor =>
        match c.gate_list[cursor]? with
        | none => none
        | some gate => some (gate.update_quantum_state st))
      state

/-- The line written to `std::cerr` by `add_diagonal_hamiltonian_rotation_gate`. -/
def not_diagonal_message : String := "ERROR: Hamiltonian is not diagonal"

/-- The method `add_diagonal_hamiltonian_rotation_gate(hamiltonian, angle)`.
`PauliRotation` is the gate factory `gate::PauliRotation`; `cerr` is the list of
lines written to `std::cerr` so far, and the result carries the circuit and the
lines written after the call. The function has no other way out: it returns
`void` and throws nothing. -/
def add_diagonal_hamiltonian_rotation_gate {D : Type} (ops : DoubleOps D)
    (PauliRotation : List Nat → List Nat → D → QuantumGateBase S)
    (c : QuantumCircuit S) (cerr : List String) (hamiltonian : Hamiltonian D) (angle : D) :
    QuantumCircuit S × List String :=
  hamiltonian.get_terms.foldl
    (fun st pauli =>
      let pauli_rotation :=
        PauliRotation pauli.get_index_list pauli.get_pauli_id_list
          (ops.mul pauli.get_coef angle)
      let cerr1 :=
        if !pauli_rotation.is_diagonal then st.2 ++ [not_diagonal_message] else st.2
      (st.1.add_gate pauli_rotation, cerr1))
    (c, cerr)

/-- The gate built for one term in the loop of `add_hamiltonian_rotation_gate`
(line 270): angle `coef * angle / num_repeats`. -/
def trotter_gate {D : Type} (ops : DoubleOps D)
    (PauliRotation : List Nat → List Nat → D → QuantumGateBase S)
    (angle : D) (num_repeats : Nat) (pauli : PauliOperator D) : QuantumGateBase S :=
  PauliRotation pauli.get_index_list pauli.get_pauli_id_list
    (ops.div (ops.mul pauli.get_coef angle) (ops.ofUINT num_repeats))

/-- The value of `num_repeats` after line 266: the argument when it is not
`0`, and `(UINT) std::ceil(angle * (double)qubit_count_ * 100.)` otherwise. -/
def effective_num_repeats {D : Type} (ops : DoubleOps D) (qubit_count_ : Nat) (angle : D)
    (num_repeats : Nat) : Option Nat :=
  if num_repeats = 0 then
    ops.toUINT (ops.ceil (ops.mul (ops.mul angle (ops.ofUINT qubit_count_)) ops.hundred))
  else some num_repeats

/-- The method `add_hamiltonian_rotation_gate(hamiltonian, angle, num_repeats)`. -/
def add_hamiltonian_rotation_gate {D : Type} (ops : DoubleOps D)
    (PauliRotation : List Nat → List Nat → D → QuantumGateBase S)
    (c : QuantumCircuit S) (hamiltonian : Hamiltonian D) (angle : D) (num_repeats : Nat) :
    Option (QuantumCircuit S) :=
  let qubit_count_ := hamiltonian.get_qubit_count
  let operator_list := hamiltonian.get_terms
  match effective_num_repeats ops qubit_count_ angle num_repeats with
  | none => none
  | some r =>
    some ((List.range r).foldl
      (fun c1 _ =>
        operator_list.foldl
          (fun c2 pauli => c2.add_gate (trotter_gate ops PauliRotation angle r pauli)) c1)
      c)

/-- The method `add_gate(gate, index)`: `_gate_list.insert(begin() + index,
gate)`. An iterator beyond `end()` is undefined behaviour (`none`); the code
makes no range check. -/
def add_gate_at (c : QuantumCircuit S) (gate : QuantumGateBase S) (index : Nat) :
    Option (QuantumCircuit S) :=
  if index ≤ c.gate_list.length then
    some { c with gate_list := c.gate_list.insertIdx index gate }
  else none

/-- The method `add_gate_copy(gate)`: `push_back(gate.copy())`. `gate_copy` is
the virtual method `QuantumGateBase::copy`. -/
def add_gate_copy (gate_copy : QuantumGateBase S → QuantumGateBase S)
    (c : QuantumCircuit S) (gate : QuantumGateBase S) : QuantumCircuit S :=
  { c with gate_list := c.gate_list ++ [gate_copy gate] }

/-- The method `add_gate_copy(gate, index)`: `insert(begin() + index,
gate.copy())`, undefined (`none`) beyond `end()`. -/
def add_gate_copy_at (gate_copy : QuantumGateBase S → QuantumGateBase S)
    (c : QuantumCircuit S) (gate : QuantumGateBase S) (index : Nat) :
    Option (QuantumCircuit S) :=
  if index ≤ c.gate_list.length then
    some { c with gate_list := c.gate_list.insertIdx index (gate_copy gate) }
  else none

/-- The method `remove_gate(index)`: `delete _gate_list[index]`, then
`erase(begin() + index)`. An index outside the vector is undefined behaviour
(`none`); the code makes no range check. -/
def remove_gate (c : QuantumCircuit S) (index : Nat) : Option (QuantumCircuit S) :=
  match c.gate_list[index]? with
  | none => none
  | some _ => some { c with gate_list := c.gate_list.eraseIdx index }

/-- The method `copy()`: a new circuit with the same qubit count, to which
`gate->copy()` of every gate is added in list order. -/
def copy (gate_copy : QuantumGateBase S → QuantumGateBase S) (c : QuantumCircuit S) :
    QuantumCircuit S :=
  c.gate_list.foldl (fun new_circuit gate => new_circuit.add_gate (gate_copy gate))
    (QuantumCircuit.empty c.qubit_count)

/-- The value `whole_qubit_index_count` of `to_string` (line 145): the sum of
the two list sizes converted to `UINT`. -/
def whole_qubit_index_count (gate : QuantumGateBase S) : Nat :=
  (gate.target_qubit_list.length + gate.control_qubit_list.length) % UINT_MOD

/-- The index `whole_qubit_index_count - 1` of line 146, a `UINT` subtraction
(count `0` wraps around to `2 ^ 32 - 1`). -/
def gate_size_index (gate : QuantumGateBase S) : Nat :=
  (whole_qubit_index_count gate + UINT_MOD - 1) % UINT_MOD

/-- The first loop of `to_string` (lines 144-148) on the pair
`(gate_size_count, max_block_size)`: `gate_size_count[count - 1]++` with the
`UINT` increment, and the running maximum of the counts. -/
def count_gate_sizes : List (QuantumGateBase S) → List Nat × Nat → Option (List Nat × Nat)
  | [], st => some st
  | gate :: rest, st =>
    match st.1[gate_size_index gate]? with
    | none => none
    | some v =>
      count_gate_sizes rest
        (st.1.set (gate_size_index gate) ((v + 1) % UINT_MOD),
         max st.2 (whole_qubit_index_count gate))

/-- One line of the second loop of `to_string` (line 154). -/
def gate_size_line (i v : Nat) : String :=
  "# of " ++ toString ((i + 1) % UINT_MOD) ++ " qubit gate: " ++ toString v

/-- The second loop of `to_string` (lines 153-155) over the values of `i`. -/
def gate_size_lines (gate_size_count : List Nat) : List Nat → Option (List String)
  | [] => some []
  | i :: rest =>
    match gate_size_count[i]? with
    | none => none
    | some v =>
      match gate_size_lines gate_size_count rest with
      | none => none
      | some ls => some (gate_size_line i v :: ls)

/-- The lines `to_string()` writes to its stream, each ended by `std::endl` in
the source. -/
def to_string_lines (c : QuantumCircuit S) : Option (List String) :=
  match count_gate_sizes c.gate_list (List.replicate c.qubit_count 0, 0) with
  | none => none
  | some st =>
    match c.calculate_depth with
    | none => none
    | some depth =>
      match gate_size_lines st.1 (List.range st.2) with
      | none => none
      | some size_lines =>
        some (["*** Quantum Circuit Info ***",
               "# of qubit: " ++ toString c.qubit_count,
               "# of step : " ++ toString depth,
               "# of gate : " ++ toString c.gate_list.length]
              ++ size_lines
              ++ ["Clifford  : " ++ (if c.is_Clifford then "yes" else "no"),
                  "Gaussian  : " ++ (if c.is_Gaussian then "yes" else "no"),
                  ""])

/-- The method `to_string()`: the lines of the stream, each followed by a
line break. -/
def to_string (c : QuantumCircuit S) : Option String :=
  (to_string_lines c).map (fun ls => String.join (ls.map (fun l => l ++ "\n")))

end QuantumCircuit

/-! ## Sample data

Concrete gates, circuits and Hamiltonians on which the theorems below are
instantiated. The state of the samples is a natural number. -/

namespace Example

/-- A Clifford gate on the single target `q`; it adds one to the state. -/
def incr (q : Nat) : QuantumGateBase Nat :=
  { target_qubit_list := [q], control_qubit_list := [], is_Clifford := true,
    is_Gaussian := true, is_diagonal := false, update_quantum_state := fun s => s + 1 }

/-- A non-Clifford gate with control `ctrl` and target `q`; it doubles the state. -/
def dbl (ctrl q : Nat) : QuantumGateBase Nat :=
  { target_qubit_list := [q], control_qubit_list := [ctrl], is_Clifford := false,
    is_Gaussian := false, is_diagonal := false, update_quantum_state := fun s => 2 * s }

/-- Three qubits: `dbl 0 1`, then `incr 2`, then `dbl 2 1`. -/
def chain3 : QuantumCircuit Nat :=
  { qubit_count := 3, gate_list := [dbl 0 1, incr 2, dbl 2 1] }

/-- Three qubits, one gate on each of the qubits 0 and 2. -/
def layer : QuantumCircuit Nat :=
  { qubit_count := 3, gate_list := [incr 0, incr 2] }

/-- One qubit, two gates on it. -/
def serial : QuantumCircuit Nat :=
  { qubit_count := 1, gate_list := [incr 0, incr 0] }

/-- One qubit, one gate that adds one to the state. -/
def single : QuantumCircuit Nat :=
  { qubit_count := 1, gate_list := [incr 0] }

/-- Exact rational arithmetic as an interpretation of the `double` operations;
`(UINT)` is defined for values whose truncation lies in `[0, 2 ^ 32)`. -/
def rationalOps : DoubleOps ℚ :=
  { mul := fun a b => a * b
    div := fun a b => a / b
    ofUINT := fun n => (n : ℚ)
    hundred := 100
    ceil := fun x => ((Int.ceil x : ℤ) : ℚ)
    toUINT := fun x =>
      if -1 < x ∧ x < 4294967296 then some (Int.floor x).toNat else none
    mul_comm := fun a b => mul_comm a b }

/-- A sample gate factory for `gate::PauliRotation`: the gate acts on the given
indices, is diagonal when every Pauli id is `0` (I) or `3` (Z), and adds the
number of its qubits to the state. -/
def PauliRotation (index_list pauli_id_list : List Nat) (_angle : ℚ) : QuantumGateBase Nat :=
  { target_qubit_list := index_list, control_qubit_list := [], is_Clifford := false,
    is_Gaussian := false,
    is_diagonal := pauli_id_list.all (fun i => i == 0 || i == 3),
    update_quantum_state := fun s => s + index_list.length }

/-- The Hamiltonian `1.0 * X_0` on one qubit. -/
def hamX : Hamiltonian ℚ :=
  { qubit_count := 1, terms := [{ index_list := [0], pauli_id_list := [1], coef := 1 }] }

/-- The Hamiltonian `1.0 * Z_0` on one qubit. -/
def hamZ : Hamiltonian ℚ :=
  { qubit_count := 1, terms := [{ index_list := [0], pauli_id_list := [3], coef := 1 }] }

/-- The Hamiltonian `1.0 * Z_0 + 0.5 * X_0 X_1` on two qubits. -/
def hamZXX : Hamiltonian ℚ :=
  { qubit_count := 2,
    terms := [{ index_list := [0], pauli_id_list := [3], coef := 1 },
              { index_list := [0, 1], pauli_id_list := [1, 1], coef := 1 / 2 }] }

end Example

/-! ## Theorems -/

namespace QuantumCircuit

variable {S : Type}

/-- Reading `filled_step[q]` with `0` outside the vector. -/
theorem max_step_among_spec (fs : List Nat) (qs : List Nat) (m : Nat)
    (hq : ∀ q ∈ qs, q < fs.length) :
    ∃ r, max_step_among fs qs m = some r ∧ m ≤ r ∧ (∀ q ∈ qs, fs[q]?.getD 0 ≤ r) ∧
      (r = m ∨ ∃ q ∈ qs, r = fs[q]?.getD 0) := by
  induction qs generalizing m with
  | nil => exact ⟨m, rfl, le_refl _, by simp, Or.inl rfl⟩
  | cons q qs ih =>
    have hlt : q < fs.length := hq q (List.mem_cons_self _ _)
    obtain ⟨r, hr, hle, hall, hex⟩ :=
      ih (max m fs[q]) (fun x hx => hq x (List.mem_cons_of_mem _ hx))
    refine ⟨r, ?_, le_trans (le_max_left _ _) hle, ?_, ?_⟩
    · simp [max_step_among, List.getElem?_eq_getElem hlt, hr]
    · intro x hx
      rcases List.mem_cons.1 hx with rfl | hx
      · simp only [List.getElem?_eq_getElem hlt, Option.getD_some]
        exact le_trans (le_max_right _ _) hle
      · exact hall x hx
    · rcases hex with h | ⟨x, hx, h⟩
      · rcases le_total m fs[q] with hm | hm
        · right
          refine ⟨q, List.mem_cons_self _ _, ?_⟩
          simp only [List.getElem?_eq_getElem hlt, Option.getD_some]
          rw [h, max_eq_right hm]
        · left
          rw [h, max_eq_left hm]
      · exact Or.inr ⟨x, List.mem_cons_of_mem _ hx, h⟩

theorem fill_step_spec (qs : List Nat) (fs : List Nat) (v : Nat)
    (hq : ∀ q ∈ qs, q < fs.length) :
    ∃ fs1, fill_step fs qs v = some fs1 ∧ fs1.length = fs.length ∧
      ∀ q, fs1[q]?.getD 0 = if q ∈ qs then v else fs[q]?.getD 0 := by
  induction qs generalizing fs with
  | nil => exact ⟨fs, rfl, rfl, by simp⟩
  | cons q qs ih =>
    have hlt : q < fs.length := hq q (List.mem_cons_self _ _)
    obtain ⟨fs1, h1, hlen, hget⟩ :=
      ih (fs.set q v) (fun x hx => by
        rw [List.length_set]; exact hq x (List.mem_cons_of_mem _ hx))
    refine ⟨fs1, ?_, ?_, ?_⟩
    · simp [fill_step, hlt, h1]
    · rw [hlen, List.length_set]
    · intro x
      rw [hget x, List.getElem?_set]
      by_cases hx : x ∈ qs
      · simp [hx]
      · by_cases hxq : q = x
        · subst hxq
          simp [hlt]
        · have hxq2 : ¬ x = q := fun h => hxq h.symm
          simp [hx, hxq, hxq2]

/-- One gate of `calculate_depth` when the gate's indices are inside the
vector: the value `m` read is the largest `filled_step` entry among the gate's
qubits, and exactly the gate's qubits are overwritten. -/
theorem depth_gate_spec (fs : List Nat) (t : Nat) (g : QuantumGateBase S)
    (hq : ∀ q ∈ g.qubits, q < fs.length) :
    ∃ fs2 m, depth_gate (fs, t) g = some (fs2, max t ((m + 1) % UINT_MOD)) ∧
      fs2.length = fs.length ∧
      (∀ q, fs2[q]?.getD 0 = if q ∈ g.qubits then (m + 1) % UINT_MOD else fs[q]?.getD 0) ∧
      (∀ q ∈ g.qubits, fs[q]?.getD 0 ≤ m) ∧
      (m = 0 ∨ ∃ q ∈ g.qubits, m = fs[q]?.getD 0) := by
  have ht : ∀ q ∈ g.target_qubit_list, q < fs.length := fun q h =>
    hq q (List.mem_append.2 (Or.inl h))
  have hc : ∀ q ∈ g.control_qubit_list, q < fs.length := fun q h =>
    hq q (List.mem_append.2 (Or.inr h))
  obtain ⟨m1, e1, _, a1, x1⟩ := max_step_among_spec fs g.target_qubit_list 0 ht
  obtain ⟨m, e2, l2, a2, x2⟩ := max_step_among_spec fs g.control_qubit_list m1 hc
  obtain ⟨fs1, e3, len1, g1⟩ :=
    fill_step_spec g.target_qubit_list fs ((m + 1) % UINT_MOD) ht
  obtain ⟨fs2, e4, len2, g2⟩ :=
    fill_step_spec g.control_qubit_list fs1 ((m + 1) % UINT_MOD) (by rw [len1]; exact hc)
  refine ⟨fs2, m, ?_, by rw [len2, len1], ?_, ?_, ?_⟩
  · simp [depth_gate, e1, e2, e3, e4]
  · intro q
    rw [g2 q, g1 q]
    by_cases h1 : q ∈ g.target_qubit_list <;> by_cases h2 : q ∈ g.control_qubit_list <;>
      simp [QuantumGateBase.qubits, h1, h2]
  · intro q hmem
    rcases List.mem_append.1 hmem with h | h
    · exact le_trans (a1 q h) l2
    · exact a2 q h
  · rcases x2 with h | ⟨q, hmem, h⟩
    · rcases x1 with h1 | ⟨q, hmem, h1⟩
      · exact Or.inl (by rw [h, h1])
      · exact Or.inr ⟨q, List.mem_append.2 (Or.inl hmem), by rw [h, h1]⟩
    · exact Or.inr ⟨q, List.mem_append.2 (Or.inr hmem), h⟩

theorem depth_loop_append (P : List (QuantumGateBase S)) (g : QuantumGateBase S)
    (st : List Nat × Nat) :
    depth_loop (P ++ [g]) st = (depth_loop P st).bind (fun s => depth_gate s g) := by
  induction P generalizing st with
  | nil =>
    simp only [List.nil_append, depth_loop, Option.some_bind]
    cases depth_gate st g <;> rfl
  | cons a P ih =>
    simp only [List.cons_append, depth_loop]
    cases depth_gate st a with
    | none => rfl
    | some s => exact ih s

/-- A sublist of `P ++ [g]` either avoids the last position or ends with it. -/
theorem sublist_concat_cases {α : Type} {l P : List α} {g : α} (h : l.Sublist (P ++ [g])) :
    l.Sublist P ∨ ∃ l1, l = l1 ++ [g] ∧ l1.Sublist P := by
  obtain ⟨l1, l2, rfl, h1, h2⟩ := List.sublist_append_iff.1 h
  rcases List.sublist_singleton.1 h2 with rfl | rfl
  · left
    simpa using h1
  · exact Or.inr ⟨l1, rfl, h1⟩

theorem IsDependencyChain.concat_left {P l : List (QuantumGateBase S)} (g : QuantumGateBase S)
    (h : IsDependencyChain P l) : IsDependencyChain (P ++ [g]) l :=
  ⟨h.1.trans (List.sublist_append_left P [g]), h.2⟩

/-- A chain of `P` that can be continued by `g` is no longer than the value
`m` read for `g`. -/
theorem DepthInv.prefix_le {n : Nat} {P : List (QuantumGateBase S)} {fs : List Nat} {t m : Nat}
    (inv : DepthInv n P fs t) (g : QuantumGateBase S)
    (hm : ∀ q ∈ g.qubits, fs[q]?.getD 0 ≤ m) (l1 : List (QuantumGateBase S))
    (hs : l1.Sublist P) (hc : (l1 ++ [g]).Chain' QuantumGateBase.shares) :
    l1.length ≤ m := by
  obtain ⟨c1, -, clast⟩ := List.chain'_append.1 hc
  cases hl : l1.getLast? with
  | none =>
    rw [List.getLast?_eq_none_iff] at hl
    simp [hl]
  | some h =>
    obtain ⟨q, qh, qg⟩ := clast h (by simp [hl]) g (by simp)
    exact le_trans (inv.bound q l1 ⟨hs, c1⟩ ⟨h, by simp [hl], qh⟩) (hm q qg)

/-- Some chain ending in `g` has `m + 1` gates. -/
theorem DepthInv.chain_through {n : Nat} {P : List (QuantumGateBase S)} {fs : List Nat}
    {t m : Nat} (inv : DepthInv n P fs t) (g : QuantumGateBase S)
    (hm : m = 0 ∨ ∃ q ∈ g.qubits, m = fs[q]?.getD 0) :
    ∃ l1, IsDependencyChain (P ++ [g]) (l1 ++ [g]) ∧ l1.length = m := by
  rcases hm with rfl | ⟨q, qg, rfl⟩
  · exact ⟨[], ⟨by simp, by simp⟩, rfl⟩
  · obtain ⟨l, ⟨ls, lc⟩, llen, llast⟩ := inv.reach q
    refine ⟨l, ⟨List.Sublist.append ls (List.Sublist.refl _), ?_⟩, llen⟩
    refine List.chain'_append.2 ⟨lc, by simp, ?_⟩
    intro x hx y hy
    have hy2 : y = g := by simpa using hy.symm
    subst hy2
    exact ⟨q, llast x hx, qg⟩

/-- The loop body of `calculate_depth` keeps the invariant, as long as the
counters stay below `2 ^ 32`. -/
theorem DepthInv.step {n : Nat} {P : List (QuantumGateBase S)} {fs : List Nat} {t : Nat}
    (inv : DepthInv n P fs t) (g : QuantumGateBase S)
    (hq : ∀ q ∈ g.qubits, q < n) (hlen : P.length + 1 < UINT_MOD) :
    ∃ fs2 t2, depth_gate (fs, t) g = some (fs2, t2) ∧ DepthInv n (P ++ [g]) fs2 t2 := by
  obtain ⟨fs2, m, e, len2, get2, hm, hex⟩ :=
    depth_gate_spec fs t g (by rw [inv.len]; exact hq)
  obtain ⟨lg, lgc, lglen⟩ := inv.chain_through g hex
  have hmP : m ≤ P.length := by
    rw [← lglen]
    have := lgc.1.length_le
    simp only [List.length_append, List.length_singleton] at this
    omega
  have hv : (m + 1) % UINT_MOD = m + 1 := Nat.mod_eq_of_lt (by omega)
  rw [hv] at e get2
  refine ⟨fs2, max t (m + 1), e, ?_⟩
  refine ⟨by rw [len2, inv.len], ?_, ?_, ?_, ?_⟩
  · intro q
    rw [get2 q]
    by_cases hqg : q ∈ g.qubits
    · rw [if_pos hqg]
      refine ⟨lg ++ [g], lgc, by simp [lglen], ?_⟩
      intro h hh
      have : h = g := by simpa using hh.symm
      rw [this]; exact hqg
    · rw [if_neg hqg]
      obtain ⟨l, lc, llen, llast⟩ := inv.reach q
      exact ⟨l, lc.concat_left g, llen, llast⟩
  · rintro q l ⟨ls, lc⟩ ⟨h, hh, qh⟩
    rw [get2 q]
    rcases sublist_concat_cases ls with ls1 | ⟨l1, rfl, ls1⟩
    · have hb := inv.bound q l ⟨ls1, lc⟩ ⟨h, hh, qh⟩
      by_cases hqg : q ∈ g.qubits
      · rw [if_pos hqg]
        exact le_trans hb (le_trans (hm q hqg) (Nat.le_succ _))
      · rw [if_neg hqg]; exact hb
    · have hg : h = g := by simpa using hh.symm
      subst hg
      rw [if_pos qh]
      have := inv.prefix_le h hm l1 ls1 lc
      simp only [List.length_append, List.length_singleton]
      omega
  · rcases le_total (m + 1) t with h | h
    · rw [max_eq_left h]
      obtain ⟨l, lc, llen⟩ := inv.tot_reach
      exact ⟨l, lc.concat_left g, llen⟩
    · rw [max_eq_right h]
      exact ⟨lg ++ [g], lgc, by simp [lglen]⟩
  · rintro l ⟨ls, lc⟩
    rcases sublist_concat_cases ls with ls1 | ⟨l1, rfl, ls1⟩
    · exact le_trans (inv.tot_bound l ⟨ls1, lc⟩) (le_max_left _ _)
    · have := inv.prefix_le g hm l1 ls1 lc
      simp only [List.length_append, List.length_singleton]
      exact le_trans (by omega) (le_max_right t (m + 1))

theorem DepthInv.init (n : Nat) : DepthInv (S := S) n [] (List.replicate n 0) 0 := by
  refine ⟨by simp, ?_, ?_, ⟨[], ⟨by simp, by simp⟩, rfl⟩, ?_⟩
  · intro q
    refine ⟨[], ⟨by simp, by simp⟩, ?_, by simp⟩
    by_cases h : q < n
    · simp [List.getElem?_replicate, h]
    · simp [List.getElem?_replicate, h]
  · rintro q l ⟨ls, -⟩ -
    simp [List.sublist_nil.1 ls]
  · rintro l ⟨ls, -⟩
    simp [List.sublist_nil.1 ls]

/-- The gate loop of `calculate_depth` runs to the end and establishes the
invariant, for gate lists shorter than `2 ^ 32` with all indices in range. -/
theorem depth_loop_inv (n : Nat) (P : List (QuantumGateBase S))
    (hlen : P.length < UINT_MOD) (hq : ∀ g ∈ P, ∀ q ∈ g.qubits, q < n) :
    ∃ fs t, depth_loop P (List.replicate n 0, 0) = some (fs, t) ∧ DepthInv n P fs t := by
  induction P using List.reverseRecOn with
  | nil => exact ⟨_, _, rfl, DepthInv.init n⟩
  | append_singleton P g ih =>
    simp only [List.length_append, List.length_singleton] at hlen
    obtain ⟨fs, t, e, inv⟩ :=
      ih (by omega) (fun h hh => hq h (List.mem_append.2 (Or.inl hh)))
    obtain ⟨fs2, t2, e2, inv2⟩ :=
      inv.step g (hq g (List.mem_append.2 (Or.inr (List.mem_singleton_self g)))) hlen
    exact ⟨fs2, t2, by rw [depth_loop_append, e]; exact e2, inv2⟩

/-- Under the in-range hypothesis and below `2 ^ 32` gates, `calculate_depth`
returns the length of a longest dependency chain. -/
theorem calculate_depth_spec (c : QuantumCircuit S) (hr : c.indices_in_range)
    (hlen : c.gate_list.length < UINT_MOD) :
    ∃ d, c.calculate_depth = some d ∧
      (∃ l, IsDependencyChain c.gate_list l ∧ l.length = d) ∧
      ∀ l, IsDependencyChain c.gate_list l → l.length ≤ d := by
  obtain ⟨fs, t, e, inv⟩ := depth_loop_inv c.qubit_count c.gate_list hlen hr
  exact ⟨t, by simp [calculate_depth, e], inv.tot_reach, inv.tot_bound⟩

/-- The state of `calculate_depth` after gates `P` whose qubit sets are
pairwise disjoint: a counter is `0` on qubits no gate touched and at most `1`
elsewhere, and the running maximum is `1` as soon as a gate was seen. -/
theorem depth_loop_disjoint (n : Nat) (P : List (QuantumGateBase S))
    (hq : ∀ g ∈ P, ∀ q ∈ g.qubits, q < n)
    (hd : P.Pairwise (fun g h => ¬ QuantumGateBase.shares g h)) :
    ∃ fs, depth_loop P (List.replicate n 0, 0) = some (fs, min P.length 1) ∧
      fs.length = n ∧ ∀ q, fs[q]?.getD 0 ≠ 0 → ∃ h ∈ P, q ∈ h.qubits := by
  induction P using List.reverseRecOn with
  | nil =>
    refine ⟨List.replicate n 0, rfl, by simp, ?_⟩
    intro q hne
    exfalso
    apply hne
    by_cases h : q < n <;> simp [List.getElem?_replicate, h]
  | append_singleton P g ih =>
    obtain ⟨hdP, -, hcross⟩ := List.pairwise_append.1 hd
    obtain ⟨fs, e, len, touched⟩ :=
      ih (fun h hh => hq h (List.mem_append.2 (Or.inl hh))) hdP
    have hg : ∀ q ∈ g.qubits, q < fs.length := by
      rw [len]
      exact hq g (List.mem_append.2 (Or.inr (List.mem_singleton_self g)))
    obtain ⟨fs2, m, e2, len2, get2, -, hex⟩ :=
      depth_gate_spec fs (min P.length 1) g hg
    have hzero : ∀ q ∈ g.qubits, fs[q]?.getD 0 = 0 := by
      intro q qg
      by_contra hne
      obtain ⟨h, hP, qh⟩ := touched q hne
      exact hcross h hP g (List.mem_singleton_self g) ⟨q, qh, qg⟩
    have hm : m = 0 := by
      rcases hex with h | ⟨q, qg, h⟩
      · exact h
      · rw [h]; exact hzero q qg
    subst hm
    have hone : (0 + 1) % UINT_MOD = 1 := by decide
    rw [hone] at e2 get2
    refine ⟨fs2, ?_, by rw [len2, len], ?_⟩
    · rw [depth_loop_append, e]
      simp only [Option.some_bind, e2, List.length_append, List.length_singleton]
      congr 2
      omega
    · intro q hne
      rw [get2 q] at hne
      by_cases qg : q ∈ g.qubits
      · exact ⟨g, List.mem_append.2 (Or.inr (List.mem_singleton_self g)), qg⟩
      · rw [if_neg qg] at hne
        obtain ⟨h, hP, qh⟩ := touched q hne
        exact ⟨h, List.mem_append.2 (Or.inl hP), qh⟩

/-- A list of gates that all act on qubit `q` is a dependency chain of itself. -/
theorem chain_of_common_qubit (q : Nat) (P : List (QuantumGateBase S))
    (h : ∀ g ∈ P, q ∈ g.qubits) : IsDependencyChain P P := by
  refine ⟨List.Sublist.refl P, ?_⟩
  induction P with
  | nil => exact List.chain'_nil
  | cons a P ih =>
    cases P with
    | nil => exact List.chain'_singleton a
    | cons b P =>
      refine List.chain'_cons.2 ⟨⟨q, h a (by simp), h b (by simp)⟩, ?_⟩
      exact ih (fun g hg => h g (List.mem_cons_of_mem _ hg))

/-- Gates that all act on one common qubit: the depth is the number of gates. -/
theorem calculate_depth_common_qubit (c : QuantumCircuit S) (q : Nat)
    (hr : c.indices_in_range) (hlen : c.gate_list.length < UINT_MOD)
    (h : ∀ g ∈ c.gate_list, q ∈ g.qubits) :
    c.calculate_depth = some c.gate_list.length := by
  obtain ⟨d, e, ⟨l, ⟨ls, -⟩, llen⟩, hb⟩ := calculate_depth_spec c hr hlen
  have h1 := hb c.gate_list (chain_of_common_qubit q c.gate_list h)
  have h2 := ls.length_le
  rw [e]
  congr 1
  omega

/-- Claim C1. For a circuit whose gates only mention qubit indices below
`qubit_count` (and whose gate count fits the 32-bit counters of the code),
`calculate_depth()` returns a number `d` such that some dependency chain (gates
in sequence order, consecutive ones sharing a target or control qubit) has
exactly `d` gates and no dependency chain has more; the empty circuit returns
`0`. -/
theorem calculate_depth_eq_longest_chain (c : QuantumCircuit S) (hr : c.indices_in_range)
    (hlen : c.gate_list.length < UINT_MOD) :
    (∃ d, c.calculate_depth = some d ∧
      (∃ l, IsDependencyChain c.gate_list l ∧ l.length = d) ∧
      ∀ l, IsDependencyChain c.gate_list l → l.length ≤ d) ∧
    (QuantumCircuit.empty c.qubit_count : QuantumCircuit S).calculate_depth = some 0 :=
  ⟨calculate_depth_spec c hr hlen, rfl⟩

/-- Claim C1 on the sample circuit `dbl 0 1; incr 2; dbl 2 1`, whose depth is 2. -/
theorem calculate_depth_eq_longest_chain_witness :
    Example.chain3.calculate_depth = some 2 ∧
    ((∃ d, Example.chain3.calculate_depth = some d ∧
      (∃ l, IsDependencyChain Example.chain3.gate_list l ∧ l.length = d) ∧
      ∀ l, IsDependencyChain Example.chain3.gate_list l → l.length ≤ d) ∧
    (QuantumCircuit.empty Example.chain3.qubit_count : QuantumCircuit Nat).calculate_depth
      = some 0) :=
  ⟨by decide,
    calculate_depth_eq_longest_chain Example.chain3
      (by unfold QuantumCircuit.indices_in_range; decide) (by decide)⟩

/-- Claim C2. For a circuit with at least one gate, indices below `qubit_count`,
and pairwise disjoint qubit sets (targets plus controls) of its gates,
`calculate_depth()` returns exactly 1. -/
theorem calculate_depth_disjoint (c : QuantumCircuit S) (hr : c.indices_in_range)
    (hne : c.gate_list ≠ [])
    (hd : c.gate_list.Pairwise (fun g h => ¬ QuantumGateBase.shares g h)) :
    c.calculate_depth = some 1 := by
  obtain ⟨fs, e, -, -⟩ := depth_loop_disjoint c.qubit_count c.gate_list hr hd
  have hpos : 0 < c.gate_list.length := List.length_pos.2 hne
  simp only [calculate_depth, e, Option.map_some']
  congr 1
  omega

/-- Claim C2 on the sample circuit with one gate on qubit 0 and one on qubit 2. -/
theorem calculate_depth_disjoint_witness : Example.layer.calculate_depth = some 1 :=
  calculate_depth_disjoint Example.layer
    (by unfold QuantumCircuit.indices_in_range; decide) (List.cons_ne_nil _ _) (by decide)

/-- Claim C3. On a circuit with `qubit_count = 1` all of whose gates act on
qubit 0, `calculate_depth()` is the number of gates, and appending with
`add_gate` one more gate that acts on qubit 0 makes it one larger (gate counts
within the 32-bit counters of the code). -/
theorem calculate_depth_single_qubit (c : QuantumCircuit S) (gate : QuantumGateBase S)
    (h1 : c.qubit_count = 1) (hr : c.indices_in_range)
    (h0 : ∀ g ∈ c.gate_list, 0 ∈ g.qubits)
    (hgr : ∀ q ∈ gate.qubits, q < 1) (hg0 : 0 ∈ gate.qubits)
    (hlen : c.gate_list.length + 1 < UINT_MOD) :
    c.calculate_depth = some c.gate_list.length ∧
    (c.add_gate gate).calculate_depth = some (c.gate_list.length + 1) := by
  constructor
  · exact calculate_depth_common_qubit c 0 hr (by omega) h0
  · have hr2 : (c.add_gate gate).indices_in_range := by
      intro g hg q hq
      rcases List.mem_append.1 hg with hg | hg
      · exact hr g hg q hq
      · rw [List.mem_singleton.1 hg] at hq
        have := hgr q hq
        show q < c.qubit_count
        omega
    have h02 : ∀ g ∈ (c.add_gate gate).gate_list, 0 ∈ g.qubits := by
      intro g hg
      rcases List.mem_append.1 hg with hg | hg
      · exact h0 g hg
      · rw [List.mem_singleton.1 hg]; exact hg0
    have := calculate_depth_common_qubit (c.add_gate gate) 0 hr2
      (by simpa [add_gate] using hlen) h02
    simpa [add_gate] using this

/-- Claim C3 on the sample one-qubit circuit with two gates, extended by a third. -/
theorem calculate_depth_single_qubit_witness :
    Example.serial.calculate_depth = some 2 ∧
    (Example.serial.add_gate (Example.incr 0)).calculate_depth = some 3 :=
  calculate_depth_single_qubit Example.serial (Example.incr 0) rfl
    (by unfold QuantumCircuit.indices_in_range; decide) (by decide) (by decide) (by decide)
    (by decide)

/-- The flag loop of `is_Clifford` and `is_Gaussian` computes a conjunction. -/
theorem foldl_flag_eq_all {α : Type} (f : α → Bool) (l : List α) (flag : Bool) :
    l.foldl (fun b a => b && f a) flag = (flag && l.all f) := by
  induction l generalizing flag with
  | nil => simp
  | cons a l ih => simp [List.foldl_cons, ih, Bool.and_assoc]

theorem is_Clifford_iff (c : QuantumCircuit S) :
    c.is_Clifford = true ↔ ∀ g ∈ c.gate_list, g.is_Clifford = true := by
  simp [is_Clifford, foldl_flag_eq_all]

theorem is_Gaussian_iff (c : QuantumCircuit S) :
    c.is_Gaussian = true ↔ ∀ g ∈ c.gate_list, g.is_Gaussian = true := by
  simp [is_Gaussian, foldl_flag_eq_all]

/-- Appending gates one by one with `add_gate` appends the list. -/
theorem foldl_add_gate (gs : List (QuantumGateBase S)) (c : QuantumCircuit S) :
    gs.foldl add_gate c = { c with gate_list := c.gate_list ++ gs } := by
  induction gs generalizing c with
  | nil => simp
  | cons g gs ih => simp [List.foldl_cons, ih, add_gate]

/-- Claim C4. `is_Clifford()` is true exactly when every gate of the list
reports `is_Clifford() = true`, `is_Gaussian()` is the same reduction over
`is_Gaussian()`, both are true on the empty circuit, and both keep their value
when the gate list is replaced by a permutation of itself. -/
theorem classification_is_and_reduction (c : QuantumCircuit S)
    (gates : List (QuantumGateBase S)) (hp : gates.Perm c.gate_list) :
    (c.is_Clifford = true ↔ ∀ g ∈ c.gate_list, g.is_Clifford = true) ∧
    (c.is_Gaussian = true ↔ ∀ g ∈ c.gate_list, g.is_Gaussian = true) ∧
    (QuantumCircuit.empty c.qubit_count : QuantumCircuit S).is_Clifford = true ∧
    (QuantumCircuit.empty c.qubit_count : QuantumCircuit S).is_Gaussian = true ∧
    is_Clifford { c with gate_list := gates } = c.is_Clifford ∧
    is_Gaussian { c with gate_list := gates } = c.is_Gaussian := by
  refine ⟨is_Clifford_iff c, is_Gaussian_iff c, rfl, rfl, ?_, ?_⟩
  · rw [Bool.eq_iff_iff, is_Clifford_iff, is_Clifford_iff]
    exact ⟨fun h g hg => h g (hp.mem_iff.2 hg), fun h g hg => h g (hp.mem_iff.1 hg)⟩
  · rw [Bool.eq_iff_iff, is_Gaussian_iff, is_Gaussian_iff]
    exact ⟨fun h g hg => h g (hp.mem_iff.2 hg), fun h g hg => h g (hp.mem_iff.1 hg)⟩

/-- Claim C4 on the sample circuit `chain3` and the same gates with the first
two exchanged. -/
theorem classification_is_and_reduction_witness :
    (Example.chain3.is_Clifford = true ↔
      ∀ g ∈ Example.chain3.gate_list, g.is_Clifford = true) ∧
    (Example.chain3.is_Gaussian = true ↔
      ∀ g ∈ Example.chain3.gate_list, g.is_Gaussian = true) ∧
    (QuantumCircuit.empty Example.chain3.qubit_count : QuantumCircuit Nat).is_Clifford
      = true ∧
    (QuantumCircuit.empty Example.chain3.qubit_count : QuantumCircuit Nat).is_Gaussian
      = true ∧
    is_Clifford { Example.chain3 with
      gate_list := [Example.incr 2, Example.dbl 0 1, Example.dbl 2 1] }
      = Example.chain3.is_Clifford ∧
    is_Gaussian { Example.chain3 with
      gate_list := [Example.incr 2, Example.dbl 0 1, Example.dbl 2 1] }
      = Example.chain3.is_Gaussian :=
  classification_is_and_reduction Example.chain3
    [Example.incr 2, Example.dbl 0 1, Example.dbl 2 1]
    (List.Perm.swap (Example.dbl 0 1) (Example.incr 2) [Example.dbl 2 1])

/-- Claim C5. `is_Clifford()` is true on the empty circuit; once a gate that
is not Clifford has been appended with `add_gate`, `is_Clifford()` is false,
and it is still false after appending any further gates with `add_gate`. -/
theorem is_Clifford_stays_false (c : QuantumCircuit S) (gate : QuantumGateBase S)
    (later : List (QuantumGateBase S)) (hg : gate.is_Clifford = false) :
    (QuantumCircuit.empty c.qubit_count : QuantumCircuit S).is_Clifford = true ∧
    (c.add_gate gate).is_Clifford = false ∧
    (later.foldl add_gate (c.add_gate gate)).is_Clifford = false := by
  refine ⟨rfl, ?_, ?_⟩
  · rw [← Bool.not_eq_true, is_Clifford_iff]
    intro h
    have := h gate (by simp [add_gate])
    rw [hg] at this
    exact Bool.false_ne_true this
  · rw [← Bool.not_eq_true, is_Clifford_iff, foldl_add_gate]
    intro h
    have := h gate (by simp [add_gate])
    rw [hg] at this
    exact Bool.false_ne_true this

/-- Claim C5 on the empty two-qubit circuit: a non-Clifford gate, then two
Clifford gates. -/
theorem is_Clifford_stays_false_witness :
    (QuantumCircuit.empty 2 : QuantumCircuit Nat).is_Clifford = true ∧
    ((QuantumCircuit.empty 2).add_gate (Example.dbl 0 1)).is_Clifford = false ∧
    ([Example.incr 0, Example.incr 1].foldl add_gate
      ((QuantumCircuit.empty 2).add_gate (Example.dbl 0 1))).is_Clifford = false :=
  is_Clifford_stays_false (QuantumCircuit.empty 2) (Example.dbl 0 1)
    [Example.incr 0, Example.incr 1] rfl

/-- The cursor loop of the ranged `update_quantum_state` applies the gates at
positions `start, ..., start + k - 1` when these lie inside the gate list. -/
theorem range_loop_eq (gates : List (QuantumGateBase S)) (k start : Nat) (state : S)
    (h : start + k ≤ gates.length) :
    (List.range' start k).foldlM
      (fun st cursor =>
        match gates[cursor]? with
        | none => none
        | some gate => some (gate.update_quantum_state st))
      state
    = some (((gates.drop start).take k).foldl
        (fun st gate => gate.update_quantum_state st) state) := by
  induction k generalizing start state with
  | zero => simp
  | succ k ih =>
    have hlt : start < gates.length := by omega
    rw [List.range'_succ, List.foldlM_cons, List.getElem?_eq_getElem hlt]
    rw [List.drop_eq_getElem_cons hlt, List.take_succ_cons, List.foldl_cons]
    simp only [Option.some_bind, Option.bind_eq_bind]
    exact ih (start + 1) _ (by omega)

/-- The ranged `update_quantum_state` inside its asserted bounds: the fold of
the gates at positions `[start, end)`. -/
theorem update_quantum_state_range_eq (c : QuantumCircuit S) (state : S) (start end_ : Nat)
    (h1 : start ≤ end_) (h2 : end_ ≤ c.gate_list.length) :
    c.update_quantum_state_range state start end_
      = some (((c.gate_list.drop start).take (end_ - start)).foldl
          (fun st gate => gate.update_quantum_state st) state) := by
  unfold update_quantum_state_range
  rw [if_neg (not_not.2 h1), if_neg (not_not.2 h2)]
  exact range_loop_eq c.gate_list (end_ - start) start state (by omega)

/-- Two consecutive slices of a list make up the slice over both. -/
theorem slice_append {α : Type} (l : List α) (i j n : Nat) (hij : i ≤ j) (hjn : j ≤ n) :
    (l.drop i).take (j - i) ++ (l.drop j).take (n - j) = (l.drop i).take (n - i) := by
  have e1 : n - i = (j - i) + (n - j) := by omega
  have e2 : (l.drop i).drop (j - i) = l.drop j := by
    rw [List.drop_drop]
    congr 1
    omega
  rw [e1, List.take_add, e2]

/-- Claim C6 as amended. For `i ≤ j ≤ n = length`, running the range `[i, j)`
and then the range `[j, n)` gives the state of one run of the range `[i, n)`;
when `i = 0` this is the run of the range `[0, n)`, which is the whole-circuit
`update_quantum_state`. -/
theorem update_range_split (c : QuantumCircuit S) (state : S) (i j : Nat)
    (hij : i ≤ j) (hjn : j ≤ c.gate_list.length) :
    ((c.update_quantum_state_range state i j).bind
        (fun st => c.update_quantum_state_range st j c.gate_list.length)
      = c.update_quantum_state_range state i c.gate_list.length) ∧
    (∃ st, c.update_quantum_state_range state i c.gate_list.length = some st) ∧
    (i = 0 →
      (c.update_quantum_state_range state i j).bind
        (fun st => c.update_quantum_state_range st j c.gate_list.length)
      = c.update_quantum_state_range state 0 c.gate_list.length ∧
      c.update_quantum_state_range state 0 c.gate_list.length
      = some (c.update_quantum_state state)) := by
  have hn : c.gate_list.length ≤ c.gate_list.length := le_refl _
  have key : (c.update_quantum_state_range state i j).bind
        (fun st => c.update_quantum_state_range st j c.gate_list.length)
      = c.update_quantum_state_range state i c.gate_list.length := by
    rw [update_quantum_state_range_eq c state i j hij hjn, Option.some_bind,
      update_quantum_state_range_eq c _ j _ hjn hn,
      update_quantum_state_range_eq c state i _ (le_trans hij hjn) hn,
      ← List.foldl_append, slice_append _ i j _ hij hjn]
  refine ⟨key, ⟨_, update_quantum_state_range_eq c state i _ (le_trans hij hjn) hn⟩, ?_⟩
  intro hi
  subst hi
  refine ⟨key, ?_⟩
  rw [update_quantum_state_range_eq c state 0 _ (Nat.zero_le _) hn]
  simp [update_quantum_state]

/-- Claim C6 as amended, on the sample circuit `chain3` from state 5 with
`i = 0`, `j = 1`: both sides give state 22. -/
theorem update_range_split_witness :
    Example.chain3.update_quantum_state_range 5 0 3 = some 22 ∧
    (((Example.chain3.update_quantum_state_range 5 0 1).bind
        (fun st => Example.chain3.update_quantum_state_range st 1
          Example.chain3.gate_list.length)
      = Example.chain3.update_quantum_state_range 5 0 Example.chain3.gate_list.length) ∧
    (∃ st, Example.chain3.update_quantum_state_range 5 0 Example.chain3.gate_list.length
      = some st) ∧
    (0 = 0 →
      (Example.chain3.update_quantum_state_range 5 0 1).bind
        (fun st => Example.chain3.update_quantum_state_range st 1
          Example.chain3.gate_list.length)
      = Example.chain3.update_quantum_state_range 5 0 Example.chain3.gate_list.length ∧
      Example.chain3.update_quantum_state_range 5 0 Example.chain3.gate_list.length
      = some (Example.chain3.update_quantum_state 5))) :=
  ⟨by decide, update_range_split Example.chain3 5 0 1 (by decide) (by decide)⟩

/-- Claim C6 as stated fails: on the one-gate sample circuit (the gate adds
one) with `i = j = n = 1` and initial state 0, the two ranged runs apply no
gate and leave 0, while the run of `[0, n)` gives 1. -/
theorem update_range_split_counterexample :
    (1 ≤ 1 ∧ 1 ≤ Example.single.gate_list.length) ∧
    (Example.single.update_quantum_state_range 0 1 1).bind
        (fun st => Example.single.update_quantum_state_range st 1
          Example.single.gate_list.length) = some 0 ∧
    Example.single.update_quantum_state_range 0 0 Example.single.gate_list.length
      = some 1 ∧
    (Example.single.update_quantum_state_range 0 1 1).bind
        (fun st => Example.single.update_quantum_state_range st 1
          Example.single.gate_list.length)
      ≠ Example.single.update_quantum_state_range 0 0 Example.single.gate_list.length := by
  decide

/-- The term loop of the lowering passes appends one gate per term. -/
theorem foldl_add_gate_map {α : Type} (f : α → QuantumGateBase S) (terms : List α)
    (c : QuantumCircuit S) :
    terms.foldl (fun c2 pauli => c2.add_gate (f pauli)) c
      = { c with gate_list := c.gate_list ++ terms.map f } := by
  induction terms generalizing c with
  | nil => simp
  | cons a terms ih =>
    rw [List.foldl_cons, ih]
    simp [add_gate]

/-- The repeat loop of `add_hamiltonian_rotation_gate`: `r` copies of the
per-term gates, one copy after the other. -/
theorem repeat_loop_eq {α : Type} (f : α → QuantumGateBase S) (terms : List α) (r : Nat)
    (c : QuantumCircuit S) :
    (List.range r).foldl
      (fun c1 _ => terms.foldl (fun c2 pauli => c2.add_gate (f pauli)) c1) c
      = { c with gate_list := c.gate_list ++ (List.replicate r (terms.map f)).flatten } := by
  induction r with
  | zero => simp
  | succ r ih =>
    rw [List.range_succ, List.foldl_append, ih]
    simp [foldl_add_gate_map, List.replicate_succ', List.flatten_concat]

/-- Position `p` of `r` concatenated copies of `l` holds element `p mod |l|`. -/
theorem getElem?_flatten_replicate {α : Type} (l : List α) (r p : Nat)
    (hp : p < r * l.length) :
    ((List.replicate r l).flatten)[p]? = l[p % l.length]? := by
  induction r generalizing p with
  | zero => simp at hp
  | succ r ih =>
    rw [List.replicate_succ, List.flatten_cons]
    by_cases h : p < l.length
    · rw [List.getElem?_append_left h, Nat.mod_eq_of_lt h]
    · have hle : l.length ≤ p := Nat.le_of_not_lt h
      rw [List.getElem?_append_right hle, ih (p - l.length) (by
        rw [Nat.succ_mul] at hp; omega)]
      congr 1
      exact (Nat.mod_eq_sub_mod hle).symm

theorem length_flatten_replicate {α : Type} (l : List α) (r : Nat) :
    ((List.replicate r l).flatten).length = r * l.length := by
  induction r with
  | zero => simp
  | succ r ih =>
    rw [List.replicate_succ, List.flatten_cons, List.length_append, ih, Nat.succ_mul]
    omega

/-- The gate of line 270 with the product written `angle * coef`. -/
theorem trotter_gate_eq {D : Type} (ops : DoubleOps D)
    (PauliRotation : List Nat → List Nat → D → QuantumGateBase S)
    (angle : D) (r : Nat) (pauli : PauliOperator D) :
    trotter_gate ops PauliRotation angle r pauli
      = PauliRotation pauli.index_list pauli.pauli_id_list
          (ops.div (ops.mul angle pauli.coef) (ops.ofUINT r)) := by
  simp only [trotter_gate, PauliOperator.get_index_list, PauliOperator.get_pauli_id_list,
    PauliOperator.get_coef]
  rw [ops.mul_comm]

/-- The pass `add_hamiltonian_rotation_gate` once the repeat count `r` is
known: `r` rounds, each appending the rotation of every term in term order. -/
theorem add_hamiltonian_rotation_gate_spec {D : Type} (ops : DoubleOps D)
    (PauliRotation : List Nat → List Nat → D → QuantumGateBase S)
    (c : QuantumCircuit S) (ham : Hamiltonian D) (angle : D) (num_repeats r : Nat)
    (hr : effective_num_repeats ops ham.qubit_count angle num_repeats = some r) :
    ∃ appended,
      add_hamiltonian_rotation_gate ops PauliRotation c ham angle num_repeats
        = some { c with gate_list := c.gate_list ++ appended } ∧
      appended.length = r * ham.terms.length ∧
      appended = (List.replicate r (ham.terms.map (fun pauli =>
        PauliRotation pauli.index_list pauli.pauli_id_list
          (ops.div (ops.mul angle pauli.coef) (ops.ofUINT r))))).flatten ∧
      ∀ p, p < r * ham.terms.length →
        appended[p]? = (ham.terms[p % ham.terms.length]?).map (fun pauli =>
          PauliRotation pauli.index_list pauli.pauli_id_list
            (ops.div (ops.mul angle pauli.coef) (ops.ofUINT r))) := by
  have hmap : ham.terms.map (trotter_gate ops PauliRotation angle r)
      = ham.terms.map (fun pauli =>
        PauliRotation pauli.index_list pauli.pauli_id_list
          (ops.div (ops.mul angle pauli.coef) (ops.ofUINT r))) :=
    List.map_congr_left (fun pauli _ => trotter_gate_eq ops PauliRotation angle r pauli)
  refine ⟨_, ?_, ?_, rfl, ?_⟩
  · simp only [add_hamiltonian_rotation_gate, Hamiltonian.get_qubit_count,
      Hamiltonian.get_terms, hr]
    rw [repeat_loop_eq, hmap]
  · rw [length_flatten_replicate, List.length_map]
  · intro p hp
    rw [getElem?_flatten_replicate _ r p (by rw [List.length_map]; exact hp),
      List.length_map, List.getElem?_map]

/-- Claim C7. With an explicit `num_repeats = r ≥ 1` and a Hamiltonian of `k`
terms, `add_hamiltonian_rotation_gate` keeps the existing gates as a prefix and
appends exactly `r * k` gates: the `k` term rotations of repeat 0 in term
order, then those of repeat 1, and so on; the appended gate at position `p` is
the Pauli rotation of term `p mod k` with its index list, its Pauli-id list and
the angle `angle * coef / r`. -/
theorem add_hamiltonian_rotation_gate_explicit {D : Type} (ops : DoubleOps D)
    (PauliRotation : List Nat → List Nat → D → QuantumGateBase S)
    (c : QuantumCircuit S) (ham : Hamiltonian D) (angle : D) (r : Nat) (hr : 1 ≤ r) :
    ∃ appended,
      add_hamiltonian_rotation_gate ops PauliRotation c ham angle r
        = some { c with gate_list := c.gate_list ++ appended } ∧
      appended.length = r * ham.terms.length ∧
      appended = (List.replicate r (ham.terms.map (fun pauli =>
        PauliRotation pauli.index_list pauli.pauli_id_list
          (ops.div (ops.mul angle pauli.coef) (ops.ofUINT r))))).flatten ∧
      ∀ p, p < r * ham.terms.length →
        appended[p]? = (ham.terms[p % ham.terms.length]?).map (fun pauli =>
          PauliRotation pauli.index_list pauli.pauli_id_list
            (ops.div (ops.mul angle pauli.coef) (ops.ofUINT r))) :=
  add_hamiltonian_rotation_gate_spec ops PauliRotation c ham angle r r (by
    unfold effective_num_repeats
    rw [if_neg (by omega)])

/-- Claim C7 on the sample circuit `single`, the two-term Hamiltonian `hamZXX`,
angle 3 and `r = 2`: four gates are appended. -/
theorem add_hamiltonian_rotation_gate_explicit_witness :
    ∃ appended,
      add_hamiltonian_rotation_gate Example.rationalOps Example.PauliRotation
        Example.single Example.hamZXX 3 2
        = some { Example.single with gate_list := Example.single.gate_list ++ appended } ∧
      appended.length = 2 * Example.hamZXX.terms.length ∧
      appended = (List.replicate 2 (Example.hamZXX.terms.map (fun pauli =>
        Example.PauliRotation pauli.index_list pauli.pauli_id_list
          (Example.rationalOps.div (Example.rationalOps.mul 3 pauli.coef)
            (Example.rationalOps.ofUINT 2))))).flatten ∧
      ∀ p, p < 2 * Example.hamZXX.terms.length →
        appended[p]? = (Example.hamZXX.terms[p % Example.hamZXX.terms.length]?).map
          (fun pauli =>
            Example.PauliRotation pauli.index_list pauli.pauli_id_list
              (Example.rationalOps.div (Example.rationalOps.mul 3 pauli.coef)
                (Example.rationalOps.ofUINT 2))) :=
  add_hamiltonian_rotation_gate_explicit Example.rationalOps Example.PauliRotation
    Example.single Example.hamZXX 3 2 (by decide)

/-- Claim C8. When `add_hamiltonian_rotation_gate` is called with
`num_repeats == 0` and the conversion `(UINT) std::ceil(angle * qubit_count *
100.)` (with the Hamiltonian's qubit count) is defined with value `r`, the pass
uses `r` as the repeat count: it appends `r * |terms|` gates, the gate at
appended position `p` being the rotation of term `p mod |terms|` with angle
`angle * coef / r`. -/
theorem add_hamiltonian_rotation_gate_default {D : Type} (ops : DoubleOps D)
    (PauliRotation : List Nat → List Nat → D → QuantumGateBase S)
    (c : QuantumCircuit S) (ham : Hamiltonian D) (angle : D) (r : Nat)
    (hr : ops.toUINT (ops.ceil
      (ops.mul (ops.mul angle (ops.ofUINT ham.qubit_count)) ops.hundred)) = some r) :
    ∃ appended,
      add_hamiltonian_rotation_gate ops PauliRotation c ham angle 0
        = some { c with gate_list := c.gate_list ++ appended } ∧
      appended.length = r * ham.terms.length ∧
      appended = (List.replicate r (ham.terms.map (fun pauli =>
        PauliRotation pauli.index_list pauli.pauli_id_list
          (ops.div (ops.mul angle pauli.coef) (ops.ofUINT r))))).flatten ∧
      ∀ p, p < r * ham.terms.length →
        appended[p]? = (ham.terms[p % ham.terms.length]?).map (fun pauli =>
          PauliRotation pauli.index_list pauli.pauli_id_list
            (ops.div (ops.mul angle pauli.coef) (ops.ofUINT r))) :=
  add_hamiltonian_rotation_gate_spec ops PauliRotation c ham angle 0 r (by
    unfold effective_num_repeats
    rw [if_pos rfl]
    exact hr)

/-- Claim C8 on the sample circuit `single`, the two-qubit Hamiltonian
`hamZXX` and angle 1/100 in exact arithmetic: `ceil (1/100 * 2 * 100) = 2`
repeats, four gates. -/
theorem add_hamiltonian_rotation_gate_default_witness :
    ∃ appended,
      add_hamiltonian_rotation_gate Example.rationalOps Example.PauliRotation
        Example.single Example.hamZXX (1 / 100) 0
        = some { Example.single with gate_list := Example.single.gate_list ++ appended } ∧
      appended.length = 2 * Example.hamZXX.terms.length ∧
      appended = (List.replicate 2 (Example.hamZXX.terms.map (fun pauli =>
        Example.PauliRotation pauli.index_list pauli.pauli_id_list
          (Example.rationalOps.div (Example.rationalOps.mul (1 / 100) pauli.coef)
            (Example.rationalOps.ofUINT 2))))).flatten ∧
      ∀ p, p < 2 * Example.hamZXX.terms.length →
        appended[p]? = (Example.hamZXX.terms[p % Example.hamZXX.terms.length]?).map
          (fun pauli =>
            Example.PauliRotation pauli.index_list pauli.pauli_id_list
              (Example.rationalOps.div (Example.rationalOps.mul (1 / 100) pauli.coef)
                (Example.rationalOps.ofUINT 2))) :=
  add_hamiltonian_rotation_gate_default Example.rationalOps Example.PauliRotation
    Example.single Example.hamZXX (1 / 100) 2 (by
      norm_num [Example.rationalOps, Example.hamZXX]
      rfl)

/-- Claim C8 as stated fails: in exact arithmetic, with `num_repeats == 0`,
the two-qubit Hamiltonian `hamZXX` and angle -1, the value
`ceil (angle * qubit_count * 100)` is -200, which is no repeat count; its
conversion to `UINT` is undefined and no list of `r * |terms|` gates results. -/
theorem add_hamiltonian_rotation_gate_default_counterexample :
    Example.rationalOps.ceil (Example.rationalOps.mul
      (Example.rationalOps.mul (-1) (Example.rationalOps.ofUINT Example.hamZXX.qubit_count))
      Example.rationalOps.hundred) = -200 ∧
    add_hamiltonian_rotation_gate Example.rationalOps Example.PauliRotation
      Example.single Example.hamZXX (-1) 0 = none := by
  have h : Example.rationalOps.ceil (Example.rationalOps.mul
      (Example.rationalOps.mul (-1) (Example.rationalOps.ofUINT Example.hamZXX.qubit_count))
      Example.rationalOps.hundred) = -200 := by
    have e : Int.ceil (-200 : ℚ) = -200 := by
      rw [show (-200 : ℚ) = ((-200 : ℤ) : ℚ) by norm_num, Int.ceil_intCast]
    norm_num [Example.rationalOps, Example.hamZXX, e]
  refine ⟨h, ?_⟩
  simp only [add_hamiltonian_rotation_gate, effective_num_repeats, Hamiltonian.get_qubit_count,
    if_pos, h]
  norm_num [Example.rationalOps]

/-- The pass `add_diagonal_hamiltonian_rotation_gate`: every term's rotation is
appended in term order, and one line goes to `std::cerr` for each rotation that
is not diagonal. -/
theorem add_diagonal_hamiltonian_rotation_gate_spec {D : Type} (ops : DoubleOps D)
    (PauliRotation : List Nat → List Nat → D → QuantumGateBase S)
    (c : QuantumCircuit S) (cerr : List String) (ham : Hamiltonian D) (angle : D) :
    add_diagonal_hamiltonian_rotation_gate ops PauliRotation c cerr ham angle
      = ({ c with gate_list := c.gate_list ++ ham.terms.map (fun pauli =>
            PauliRotation pauli.index_list pauli.pauli_id_list (ops.mul pauli.coef angle)) },
         cerr ++ List.replicate
           ((ham.terms.filter (fun pauli =>
              !(PauliRotation pauli.index_list pauli.pauli_id_list
                (ops.mul pauli.coef angle)).is_diagonal)).length)
           not_diagonal_message) := by
  unfold add_diagonal_hamiltonian_rotation_gate Hamiltonian.get_terms
  generalize ham.terms = terms
  induction terms generalizing c cerr with
  | nil => simp
  | cons a terms ih =>
    rw [List.foldl_cons, ih]
    simp only [PauliOperator.get_index_list, PauliOperator.get_pauli_id_list,
      PauliOperator.get_coef, add_gate, List.map_cons, List.append_assoc,
      List.singleton_append, List.filter_cons]
    cases hd : (PauliRotation a.index_list a.pauli_id_list (ops.mul a.coef angle)).is_diagonal
    · simp [List.replicate_succ]
    · simp

/-- Claim C9 as stated fails: for the Hamiltonian `1.0 * X_0`, whose rotation
gate is not diagonal, `add_diagonal_hamiltonian_rotation_gate` on the empty
one-qubit circuit returns normally with that non-diagonal gate appended; the
only trace is one line on `std::cerr`. -/
theorem add_diagonal_nondiagonal_counterexample :
    (∃ pauli ∈ Example.hamX.terms,
      (Example.PauliRotation pauli.index_list pauli.pauli_id_list
        (Example.rationalOps.mul pauli.coef 1)).is_diagonal = false) ∧
    (add_diagonal_hamiltonian_rotation_gate Example.rationalOps Example.PauliRotation
      (QuantumCircuit.empty 1) [] Example.hamX 1).1.gate_list.length = 1 ∧
    (∃ g ∈ (add_diagonal_hamiltonian_rotation_gate Example.rationalOps Example.PauliRotation
      (QuantumCircuit.empty 1) [] Example.hamX 1).1.gate_list, g.is_diagonal = false) ∧
    (add_diagonal_hamiltonian_rotation_gate Example.rationalOps Example.PauliRotation
      (QuantumCircuit.empty 1) [] Example.hamX 1).2 = [not_diagonal_message] := by
  refine ⟨by decide, by decide, by decide, by decide⟩

/-- Claim C9 as amended. If some term of the Hamiltonian yields a rotation gate
that is not diagonal, `add_diagonal_hamiltonian_rotation_gate` still appends
the rotation of every term in term order, the non-diagonal ones included, and
writes the line `ERROR: Hamiltonian is not diagonal` to `std::cerr` once per
non-diagonal rotation, at least once; it returns normally. -/
theorem add_diagonal_nondiagonal_logged {D : Type} (ops : DoubleOps D)
    (PauliRotation : List Nat → List Nat → D → QuantumGateBase S)
    (c : QuantumCircuit S) (cerr : List String) (ham : Hamiltonian D) (angle : D)
    (h : ∃ pauli ∈ ham.terms,
      (PauliRotation pauli.index_list pauli.pauli_id_list
        (ops.mul pauli.coef angle)).is_diagonal = false) :
    ∃ n,
      add_diagonal_hamiltonian_rotation_gate ops PauliRotation c cerr ham angle
        = ({ c with gate_list := c.gate_list ++ ham.terms.map (fun pauli =>
              PauliRotation pauli.index_list pauli.pauli_id_list
                (ops.mul pauli.coef angle)) },
           cerr ++ List.replicate n not_diagonal_message) ∧
      0 < n ∧
      n = (ham.terms.filter (fun pauli =>
        !(PauliRotation pauli.index_list pauli.pauli_id_list
          (ops.mul pauli.coef angle)).is_diagonal)).length ∧
      ∃ g ∈ (add_diagonal_hamiltonian_rotation_gate ops PauliRotation c cerr ham
        angle).1.gate_list, g.is_diagonal = false := by
  obtain ⟨pauli, hmem, hnd⟩ := h
  refine ⟨_, add_diagonal_hamiltonian_rotation_gate_spec ops PauliRotation c cerr ham angle,
    ?_, rfl, ?_⟩
  · apply List.length_pos_of_mem (a := pauli)
    rw [List.mem_filter]
    exact ⟨hmem, by simp [hnd]⟩
  · rw [add_diagonal_hamiltonian_rotation_gate_spec]
    refine ⟨_, ?_, hnd⟩
    exact List.mem_append.2 (Or.inr (List.mem_map.2 ⟨pauli, hmem, rfl⟩))

/-- Claim C9 as amended, on the sample circuit `single` and the Hamiltonian
`hamZXX`, whose second term is not diagonal. -/
theorem add_diagonal_nondiagonal_logged_witness :
    ∃ n,
      add_diagonal_hamiltonian_rotation_gate Example.rationalOps Example.PauliRotation
        Example.single [] Example.hamZXX 3
        = ({ Example.single with
              gate_list := Example.single.gate_list ++ Example.hamZXX.terms.map (fun pauli =>
                Example.PauliRotation pauli.index_list pauli.pauli_id_list
                  (Example.rationalOps.mul pauli.coef 3)) },
           [] ++ List.replicate n not_diagonal_message) ∧
      0 < n ∧
      n = (Example.hamZXX.terms.filter (fun pauli =>
        !(Example.PauliRotation pauli.index_list pauli.pauli_id_list
          (Example.rationalOps.mul pauli.coef 3)).is_diagonal)).length ∧
      ∃ g ∈ (add_diagonal_hamiltonian_rotation_gate Example.rationalOps
        Example.PauliRotation Example.single [] Example.hamZXX 3).1.gate_list,
        g.is_diagonal = false :=
  add_diagonal_nondiagonal_logged Example.rationalOps Example.PauliRotation
    Example.single [] Example.hamZXX 3 (by decide)

/-- Claim C10. For a Hamiltonian all of whose terms yield diagonal rotation
gates, `add_diagonal_hamiltonian_rotation_gate(hamiltonian, angle)` keeps the
gates already present as a prefix and appends exactly one gate per term, in
term order, each the Pauli rotation built from the term's index list, Pauli-id
list and `coef * angle`; every appended gate is diagonal and nothing is written
to `std::cerr`. -/
theorem add_diagonal_appends_rotations {D : Type} (ops : DoubleOps D)
    (PauliRotation : List Nat → List Nat → D → QuantumGateBase S)
    (c : QuantumCircuit S) (cerr : List String) (ham : Hamiltonian D) (angle : D)
    (h : ∀ pauli ∈ ham.terms,
      (PauliRotation pauli.index_list pauli.pauli_id_list
        (ops.mul pauli.coef angle)).is_diagonal = true) :
    add_diagonal_hamiltonian_rotation_gate ops PauliRotation c cerr ham angle
      = ({ c with gate_list := c.gate_list ++ ham.terms.map (fun pauli =>
            PauliRotation pauli.index_list pauli.pauli_id_list
              (ops.mul pauli.coef angle)) }, cerr) ∧
    (add_diagonal_hamiltonian_rotation_gate ops PauliRotation c cerr ham
      angle).1.gate_list.length = c.gate_list.length + ham.terms.length ∧
    (add_diagonal_hamiltonian_rotation_gate ops PauliRotation c cerr ham
      angle).1.gate_list.take c.gate_list.length = c.gate_list ∧
    (∀ g ∈ (add_diagonal_hamiltonian_rotation_gate ops PauliRotation c cerr ham
      angle).1.gate_list.drop c.gate_list.length, g.is_diagonal = true) ∧
    (∀ i, i < ham.terms.length →
      (add_diagonal_hamiltonian_rotation_gate ops PauliRotation c cerr ham
        angle).1.gate_list[c.gate_list.length + i]?
      = (ham.terms[i]?).map (fun pauli =>
          PauliRotation pauli.index_list pauli.pauli_id_list
            (ops.mul pauli.coef angle))) := by
  have hfil : ham.terms.filter (fun pauli =>
      !(PauliRotation pauli.index_list pauli.pauli_id_list
        (ops.mul pauli.coef angle)).is_diagonal) = [] := by
    rw [List.filter_eq_nil_iff]
    intro pauli hmem
    simp [h pauli hmem]
  have e := add_diagonal_hamiltonian_rotation_gate_spec ops PauliRotation c cerr ham angle
  rw [hfil] at e
  simp only [List.length_nil, List.replicate_zero, List.append_nil] at e
  rw [e]
  refine ⟨rfl, by simp, by simp, ?_, ?_⟩
  · intro g hg
    simp only [List.drop_left] at hg
    obtain ⟨pauli, hmem, rfl⟩ := List.mem_map.1 hg
    exact h pauli hmem
  · intro i _
    simp [List.getElem?_append_right]

/-- Claim C10 on the sample circuit `single` and the Hamiltonian with the
single term `1.0 * Z_0`: exactly one gate is appended and it is diagonal. -/
theorem add_diagonal_appends_rotations_witness :
    (add_diagonal_hamiltonian_rotation_gate Example.rationalOps Example.PauliRotation
      Example.single [] Example.hamZ 3).1.gate_list.length
      = Example.single.gate_list.length + 1 ∧
    ∀ g ∈ (add_diagonal_hamiltonian_rotation_gate Example.rationalOps
      Example.PauliRotation Example.single [] Example.hamZ 3).1.gate_list.drop
      Example.single.gate_list.length, g.is_diagonal = true :=
  have h := add_diagonal_appends_rotations Example.rationalOps Example.PauliRotation
    Example.single [] Example.hamZ 3 (by decide)
  ⟨h.2.1, h.2.2.2.1⟩

/-- Inserting at a position inside the list splits the list there. -/
theorem insertIdx_eq_take_drop {α : Type} (a : α) (l : List α) (n : Nat)
    (h : n ≤ l.length) : l.insertIdx n a = l.take n ++ [a] ++ l.drop n := by
  induction l generalizing n with
  | nil =>
    have : n = 0 := by simpa using h
    subst this
    simp
  | cons b l ih =>
    cases n with
    | zero => simp
    | succ n =>
      rw [List.insertIdx_succ_cons, ih n (by simpa using h)]
      simp

theorem add_gate_at_eq (c : QuantumCircuit S) (gate : QuantumGateBase S) (index : Nat)
    (h : index ≤ c.gate_list.length) :
    c.add_gate_at gate index
      = some { c with gate_list :=
          c.gate_list.take index ++ [gate] ++ c.gate_list.drop index } := by
  unfold add_gate_at
  rw [if_pos h, insertIdx_eq_take_drop gate c.gate_list index h]

theorem remove_gate_eq (c : QuantumCircuit S) (index : Nat)
    (h : index < c.gate_list.length) :
    c.remove_gate index
      = some { c with gate_list :=
          c.gate_list.take index ++ c.gate_list.drop (index + 1) } := by
  unfold remove_gate
  rw [List.getElem?_eq_getElem h, List.eraseIdx_eq_take_drop_succ]

/-- Claim C11. For a gate list `L` and `index ≤ |L|`, `add_gate(gate, index)`
yields the first `index` gates of `L`, then `gate`, then the remaining gates of
`L`: the length grows by one, `gate` sits at position `index`, the gates before
it keep their positions and the gates after it move up by one; `add_gate(gate)`
is the case `index = |L|`. -/
theorem add_gate_at_inserts (c : QuantumCircuit S) (gate : QuantumGateBase S) (index : Nat)
    (h : index ≤ c.gate_list.length) :
    ∃ c1, c.add_gate_at gate index = some c1 ∧
      c1.qubit_count = c.qubit_count ∧
      c1.gate_list = c.gate_list.take index ++ [gate] ++ c.gate_list.drop index ∧
      c1.gate_list.length = c.gate_list.length + 1 ∧
      c1.gate_list[index]? = some gate ∧
      (∀ i, i < index → c1.gate_list[i]? = c.gate_list[i]?) ∧
      (∀ i, index ≤ i → c1.gate_list[i + 1]? = c.gate_list[i]?) ∧
      c.add_gate_at gate c.gate_list.length = some (c.add_gate gate) := by
  have hlen : (c.gate_list.take index).length = index := List.length_take_of_le h
  refine ⟨_, add_gate_at_eq c gate index h, rfl, rfl, ?_, ?_, ?_, ?_, ?_⟩
  · simp only [List.length_append, List.length_take, List.length_drop, List.length_singleton]
    omega
  · show (c.gate_list.take index ++ [gate] ++ c.gate_list.drop index)[index]? = some gate
    rw [List.append_assoc, List.getElem?_append_right (by omega), hlen]
    simp
  · intro i hi
    show (c.gate_list.take index ++ [gate] ++ c.gate_list.drop index)[i]? = c.gate_list[i]?
    rw [List.append_assoc, List.getElem?_append_left (by omega), List.getElem?_take_of_lt hi]
  · intro i hi
    show (c.gate_list.take index ++ [gate] ++ c.gate_list.drop index)[i + 1]?
      = c.gate_list[i]?
    rw [List.getElem?_append_right (by
      simp only [List.length_append, List.length_singleton, hlen]; omega)]
    simp only [List.length_append, List.length_singleton, hlen, List.getElem?_drop]
    congr 1
    omega
  · rw [add_gate_at_eq c gate _ (le_refl _)]
    simp [add_gate]

/-- Claim C11 on the sample circuit `chain3`, inserting at position 1. -/
theorem add_gate_at_inserts_witness :
    ∃ c1, Example.chain3.add_gate_at (Example.incr 0) 1 = some c1 ∧
      c1.qubit_count = Example.chain3.qubit_count ∧
      c1.gate_list = Example.chain3.gate_list.take 1 ++ [Example.incr 0]
        ++ Example.chain3.gate_list.drop 1 ∧
      c1.gate_list.length = Example.chain3.gate_list.length + 1 ∧
      c1.gate_list[1]? = some (Example.incr 0) ∧
      (∀ i, i < 1 → c1.gate_list[i]? = Example.chain3.gate_list[i]?) ∧
      (∀ i, 1 ≤ i → c1.gate_list[i + 1]? = Example.chain3.gate_list[i]?) ∧
      Example.chain3.add_gate_at (Example.incr 0) Example.chain3.gate_list.length
        = some (Example.chain3.add_gate (Example.incr 0)) :=
  add_gate_at_inserts Example.chain3 (Example.incr 0) 1 (by decide)

/-- Claim C12. For a gate list `L` and `index < |L|`, `remove_gate(index)`
yields `L` without the gate at position `index`: the length shrinks by one, the
gates before it keep their positions and the gates after it move down by one;
and for `j ≤ |L|`, `add_gate(gate, j)` followed by `remove_gate(j)` gives back
the original circuit. -/
theorem remove_gate_erases (c : QuantumCircuit S) (index : Nat)
    (h : index < c.gate_list.length) (gate : QuantumGateBase S) (j : Nat)
    (hj : j ≤ c.gate_list.length) :
    (∃ c1, c.remove_gate index = some c1 ∧
      c1.qubit_count = c.qubit_count ∧
      c1.gate_list = c.gate_list.take index ++ c.gate_list.drop (index + 1) ∧
      c1.gate_list.length + 1 = c.gate_list.length ∧
      (∀ i, i < index → c1.gate_list[i]? = c.gate_list[i]?) ∧
      (∀ i, index ≤ i → c1.gate_list[i]? = c.gate_list[i + 1]?)) ∧
    (c.add_gate_at gate j).bind (fun c1 => c1.remove_gate j) = some c := by
  have hlen : (c.gate_list.take index).length = index := List.length_take_of_le (by omega)
  constructor
  · refine ⟨_, remove_gate_eq c index h, rfl, rfl, ?_, ?_, ?_⟩
    · simp only [List.length_append, List.length_take, List.length_drop]
      omega
    · intro i hi
      show (c.gate_list.take index ++ c.gate_list.drop (index + 1))[i]? = c.gate_list[i]?
      rw [List.getElem?_append_left (by omega), List.getElem?_take_of_lt hi]
    · intro i hi
      show (c.gate_list.take index ++ c.gate_list.drop (index + 1))[i]? = c.gate_list[i + 1]?
      rw [List.getElem?_append_right (by omega), hlen, List.getElem?_drop]
      congr 1
      omega
  · unfold add_gate_at
    rw [if_pos hj, Option.some_bind]
    unfold remove_gate
    have hlt : j < (c.gate_list.insertIdx j gate).length := by
      rw [List.length_insertIdx _ _ hj]; omega
    simp only [List.getElem?_eq_getElem hlt, List.eraseIdx_insertIdx]

/-- Claim C12 on the sample circuit `chain3`: removing position 1, and
inserting then removing at position 2. -/
theorem remove_gate_erases_witness :
    (∃ c1, Example.chain3.remove_gate 1 = some c1 ∧
      c1.qubit_count = Example.chain3.qubit_count ∧
      c1.gate_list = Example.chain3.gate_list.take 1
        ++ Example.chain3.gate_list.drop (1 + 1) ∧
      c1.gate_list.length + 1 = Example.chain3.gate_list.length ∧
      (∀ i, i < 1 → c1.gate_list[i]? = Example.chain3.gate_list[i]?) ∧
      (∀ i, 1 ≤ i → c1.gate_list[i]? = Example.chain3.gate_list[i + 1]?)) ∧
    (Example.chain3.add_gate_at (Example.incr 0) 2).bind (fun c1 => c1.remove_gate 2)
      = some Example.chain3 :=
  remove_gate_erases Example.chain3 1 (by decide) (Example.incr 0) 2 (by decide)

/-- Claim C13 at out-of-range positions: on the one-gate sample circuit,
`add_gate(gate, 5)`, `add_gate_copy(gate, 5)` and `remove_gate(1)` run into
undefined behaviour; the code contains no range check and raises no index
error. -/
theorem out_of_range_position_undefined :
    Example.single.add_gate_at (Example.incr 0) 5 = none ∧
    add_gate_copy_at id Example.single (Example.incr 0) 5 = none ∧
    Example.single.remove_gate 1 = none :=
  ⟨rfl, rfl, rfl⟩

/-- Claim C14. `update_quantum_state(state, start, end)` fails (one of its two
assertions fails) exactly when `start > end` or `end > length`; otherwise it
returns the state obtained by applying, in this order, the gates at positions
`start, start + 1, ..., end - 1` and no others. -/
theorem update_quantum_state_range_contract (c : QuantumCircuit S) (state : S)
    (start end_ : Nat) :
    (c.update_quantum_state_range state start end_ = none
      ↔ end_ < start ∨ c.gate_list.length < end_) ∧
    (start ≤ end_ ∧ end_ ≤ c.gate_list.length →
      ∃ applied : List (QuantumGateBase S),
        c.update_quantum_state_range state start end_
          = some (applied.foldl (fun st gate => gate.update_quantum_state st) state) ∧
        applied.length = end_ - start ∧
        ∀ k, k < end_ - start → applied[k]? = c.gate_list[start + k]?) := by
  have hin : start ≤ end_ ∧ end_ ≤ c.gate_list.length →
      ∃ applied : List (QuantumGateBase S),
        c.update_quantum_state_range state start end_
          = some (applied.foldl (fun st gate => gate.update_quantum_state st) state) ∧
        applied.length = end_ - start ∧
        ∀ k, k < end_ - start → applied[k]? = c.gate_list[start + k]? := by
    rintro ⟨h1, h2⟩
    refine ⟨(c.gate_list.drop start).take (end_ - start),
      update_quantum_state_range_eq c state start end_ h1 h2, ?_, ?_⟩
    · rw [List.length_take, List.length_drop]
      omega
    · intro k hk
      rw [List.getElem?_take_of_lt hk, List.getElem?_drop]
  refine ⟨⟨?_, ?_⟩, hin⟩
  · intro hnone
    by_contra hcon
    obtain ⟨applied, e, -, -⟩ := hin ⟨by omega, by omega⟩
    rw [e] at hnone
    exact Option.some_ne_none _ hnone
  · intro hbad
    unfold update_quantum_state_range
    rcases hbad with hbad | hbad
    · rw [if_pos (by omega)]
    · by_cases h1 : start ≤ end_
      · rw [if_neg (not_not.2 h1), if_pos (by omega)]
      · rw [if_pos h1]

/-- Claim C14 on the sample circuit `chain3` with the range `[1, 3)`. -/
theorem update_quantum_state_range_contract_witness :
    ∃ applied : List (QuantumGateBase Nat),
      Example.chain3.update_quantum_state_range 5 1 3
        = some (applied.foldl (fun st gate => gate.update_quantum_state st) 5) ∧
      applied.length = 3 - 1 ∧
      ∀ k, k < 3 - 1 → applied[k]? = Example.chain3.gate_list[1 + k]? :=
  (update_quantum_state_range_contract Example.chain3 5 1 3).2 ⟨by decide, by decide⟩

/-- The gate list of `copy()`: the copy of every gate, in the same order. -/
theorem copy_eq (gate_copy : QuantumGateBase S → QuantumGateBase S) (c : QuantumCircuit S) :
    copy gate_copy c
      = { qubit_count := c.qubit_count, gate_list := c.gate_list.map gate_copy } := by
  unfold copy
  rw [foldl_add_gate_map]
  simp [QuantumCircuit.empty]

/-- Gate lists whose gates update every state alike give the same run. -/
theorem foldl_update_congr (f : QuantumGateBase S → QuantumGateBase S)
    (l : List (QuantumGateBase S))
    (h : ∀ g ∈ l, ∀ s, (f g).update_quantum_state s = g.update_quantum_state s) (state : S) :
    (l.map f).foldl (fun st gate => gate.update_quantum_state st) state
      = l.foldl (fun st gate => gate.update_quantum_state st) state := by
  induction l generalizing state with
  | nil => rfl
  | cons a l ih =>
    rw [List.map_cons, List.foldl_cons, List.foldl_cons, h a (List.mem_cons_self _ _)]
    exact ih (fun g hg => h g (List.mem_cons_of_mem _ hg)) _

/-- Claim C15. If the copy of every gate updates every state as the gate does,
`copy()` returns a circuit with the same qubit count whose gate list is the
list of the copies in the same order (so of the same length), whose
`update_quantum_state` gives the same final state as the original on every
initial state, and from which `remove_gate` removes one gate while the original
still has all of its gates. -/
theorem copy_behaves_like_original (gate_copy : QuantumGateBase S → QuantumGateBase S)
    (c : QuantumCircuit S)
    (h : ∀ g ∈ c.gate_list, ∀ s,
      (gate_copy g).update_quantum_state s = g.update_quantum_state s) :
    (copy gate_copy c).qubit_count = c.qubit_count ∧
    (copy gate_copy c).gate_list = c.gate_list.map gate_copy ∧
    (copy gate_copy c).gate_list.length = c.gate_list.length ∧
    (∀ state, (copy gate_copy c).update_quantum_state state
      = c.update_quantum_state state) ∧
    (∀ index, index < c.gate_list.length →
      ∃ c1, (copy gate_copy c).remove_gate index = some c1 ∧
        c1.gate_list.length + 1 = c.gate_list.length ∧
        c1.gate_list
          = (c.gate_list.take index ++ c.gate_list.drop (index + 1)).map gate_copy) := by
  rw [copy_eq]
  refine ⟨rfl, rfl, by simp, ?_, ?_⟩
  · intro state
    exact foldl_update_congr gate_copy c.gate_list h state
  · intro index hi
    refine ⟨_, remove_gate_eq _ index (by simpa using hi), ?_, ?_⟩
    · simp only [List.length_append, List.length_take, List.length_drop, List.length_map]
      omega
    · simp [List.map_take, List.map_drop]

/-- Claim C15 on the sample circuit `chain3` with gates copied unchanged. -/
theorem copy_behaves_like_original_witness :
    (copy id Example.chain3).qubit_count = Example.chain3.qubit_count ∧
    (copy id Example.chain3).gate_list = Example.chain3.gate_list.map id ∧
    (copy id Example.chain3).gate_list.length = Example.chain3.gate_list.length ∧
    (∀ state, (copy id Example.chain3).update_quantum_state state
      = Example.chain3.update_quantum_state state) ∧
    (∀ index, index < Example.chain3.gate_list.length →
      ∃ c1, (copy id Example.chain3).remove_gate index = some c1 ∧
        c1.gate_list.length + 1 = Example.chain3.gate_list.length ∧
        c1.gate_list
          = (Example.chain3.gate_list.take index
              ++ Example.chain3.gate_list.drop (index + 1)).map id) :=
  copy_behaves_like_original id Example.chain3 (fun _ _ _ => rfl)

/-- Claim C18. The whole-circuit `update_quantum_state(state)` and the ranged
`update_quantum_state(state, 0, n)` with `n` the number of gates give the same
final state: the left-to-right fold of every gate's state update. -/
theorem update_quantum_state_eq_full_range (c : QuantumCircuit S) (state : S) :
    c.update_quantum_state_range state 0 c.gate_list.length
      = some (c.update_quantum_state state) ∧
    c.update_quantum_state state
      = c.gate_list.foldl (fun st gate => gate.update_quantum_state st) state := by
  refine ⟨?_, rfl⟩
  rw [update_quantum_state_range_eq c state 0 _ (Nat.zero_le _) (le_refl _)]
  simp [update_quantum_state]

/-- A gate list whose gates come from an in-range list or are in range
themselves is in range. -/
theorem indices_in_range_of_mem (c c1 : QuantumCircuit S) (hc : c.indices_in_range)
    (hq : c1.qubit_count = c.qubit_count)
    (h : ∀ g ∈ c1.gate_list, g ∈ c.gate_list ∨ ∀ q ∈ g.qubits, q < c.qubit_count) :
    c1.indices_in_range := by
  intro g hg q hqg
  rw [hq]
  rcases h g hg with h1 | h1
  · exact hc g h1 q hqg
  · exact h1 q hqg

/-- Claim C16 as stated fails: the empty one-qubit circuit satisfies the
invariant, and `add_gate` of a gate on qubit 5 is accepted and breaks it. -/
theorem indices_in_range_counterexample :
    (QuantumCircuit.empty 1 : QuantumCircuit Nat).indices_in_range ∧
    ((QuantumCircuit.empty 1).add_gate (Example.incr 5)).gate_list = [Example.incr 5] ∧
    ¬ ((QuantumCircuit.empty 1).add_gate (Example.incr 5)).indices_in_range := by
  refine ⟨?_, rfl, ?_⟩
  · unfold indices_in_range; decide
  · unfold indices_in_range; decide

/-- Claim C16 as amended. The invariant `every qubit index of every gate is
below qubit_count` holds for the empty circuit and is preserved by
`remove_gate`, by `copy` when copies act on the same qubits, by `add_gate`,
`add_gate` at an index and `add_gate_copy` when the gate passed in is itself
in range, and by both Hamiltonian lowering passes when every rotation gate
built from a term of the Hamiltonian is in range for the circuit. -/
theorem indices_in_range_preserved {D : Type} (ops : DoubleOps D)
    (PauliRotation : List Nat → List Nat → D → QuantumGateBase S)
    (gate_copy : QuantumGateBase S → QuantumGateBase S)
    (c : QuantumCircuit S) (gate : QuantumGateBase S) (ham : Hamiltonian D)
    (hc : c.indices_in_range)
    (hg : ∀ q ∈ gate.qubits, q < c.qubit_count)
    (hcopy : ∀ g, (gate_copy g).qubits = g.qubits)
    (hrot : ∀ pauli ∈ ham.terms, ∀ a, ∀ q ∈
      (PauliRotation pauli.index_list pauli.pauli_id_list a).qubits, q < c.qubit_count) :
    (QuantumCircuit.empty c.qubit_count : QuantumCircuit S).indices_in_range ∧
    (c.add_gate gate).indices_in_range ∧
    (∀ index c1, c.add_gate_at gate index = some c1 → c1.indices_in_range) ∧
    (add_gate_copy gate_copy c gate).indices_in_range ∧
    (∀ index c1, add_gate_copy_at gate_copy c gate index = some c1 →
      c1.indices_in_range) ∧
    (∀ index c1, c.remove_gate index = some c1 → c1.indices_in_range) ∧
    (copy gate_copy c).indices_in_range ∧
    (∀ cerr angle, (add_diagonal_hamiltonian_rotation_gate ops PauliRotation c cerr ham
      angle).1.indices_in_range) ∧
    (∀ angle num_repeats c1,
      add_hamiltonian_rotation_gate ops PauliRotation c ham angle num_repeats = some c1 →
      c1.indices_in_range) := by
  have hgc : ∀ q ∈ (gate_copy gate).qubits, q < c.qubit_count := by
    rw [hcopy]; exact hg
  refine ⟨?_, ?_, ?_, ?_, ?_, ?_, ?_, ?_, ?_⟩
  · intro g hg0
    simp [QuantumCircuit.empty] at hg0
  · refine indices_in_range_of_mem c _ hc rfl ?_
    intro g hmem
    rcases List.mem_append.1 hmem with h1 | h1
    · exact Or.inl h1
    · rw [List.mem_singleton.1 h1]; exact Or.inr hg
  · intro index c1 h1
    unfold add_gate_at at h1
    by_cases hi : index ≤ c.gate_list.length
    · rw [if_pos hi] at h1
      cases h1
      refine indices_in_range_of_mem c _ hc rfl ?_
      intro g hmem
      rcases (List.mem_insertIdx hi).1 hmem with h2 | h2
      · rw [h2]; exact Or.inr hg
      · exact Or.inl h2
    · rw [if_neg hi] at h1
      cases h1
  · refine indices_in_range_of_mem c _ hc rfl ?_
    intro g hmem
    rcases List.mem_append.1 hmem with h1 | h1
    · exact Or.inl h1
    · rw [List.mem_singleton.1 h1]; exact Or.inr hgc
  · intro index c1 h1
    unfold add_gate_copy_at at h1
    by_cases hi : index ≤ c.gate_list.length
    · rw [if_pos hi] at h1
      cases h1
      refine indices_in_range_of_mem c _ hc rfl ?_
      intro g hmem
      rcases (List.mem_insertIdx hi).1 hmem with h2 | h2
      · rw [h2]; exact Or.inr hgc
      · exact Or.inl h2
    · rw [if_neg hi] at h1
      cases h1
  · intro index c1 h1
    unfold remove_gate at h1
    cases hget : c.gate_list[index]? with
    | none => rw [hget] at h1; cases h1
    | some g0 =>
      rw [hget] at h1
      cases h1
      refine indices_in_range_of_mem c _ hc rfl ?_
      intro g hmem
      exact Or.inl (List.mem_of_mem_eraseIdx hmem)
  · rw [copy_eq]
    intro g hmem q hq
    obtain ⟨g0, hg0, rfl⟩ := List.mem_map.1 hmem
    rw [hcopy] at hq
    exact hc g0 hg0 q hq
  · intro cerr angle
    rw [add_diagonal_hamiltonian_rotation_gate_spec]
    refine indices_in_range_of_mem c _ hc rfl ?_
    intro g hmem
    rcases List.mem_append.1 hmem with h1 | h1
    · exact Or.inl h1
    · obtain ⟨pauli, hp, rfl⟩ := List.mem_map.1 h1
      exact Or.inr (hrot pauli hp _)
  · intro angle num_repeats c1 h1
    cases hr : effective_num_repeats ops ham.qubit_count angle num_repeats with
    | none =>
      simp [add_hamiltonian_rotation_gate, Hamiltonian.get_qubit_count, hr] at h1
    | some r =>
      obtain ⟨appended, e, -, happ, -⟩ :=
        add_hamiltonian_rotation_gate_spec ops PauliRotation c ham angle num_repeats r hr
      rw [e] at h1
      cases h1
      refine indices_in_range_of_mem c _ hc rfl ?_
      intro g hmem
      rcases List.mem_append.1 hmem with h2 | h2
      · exact Or.inl h2
      · rw [happ] at h2
        obtain ⟨l, hl, hgl⟩ := List.mem_flatten.1 h2
        rw [List.eq_of_mem_replicate hl] at hgl
        obtain ⟨pauli, hp, rfl⟩ := List.mem_map.1 hgl
        exact Or.inr (hrot pauli hp _)

/-- Claim C16 as amended, on the two-qubit sample circuit with one gate, a
gate on qubit 1, and the two-qubit Hamiltonian `hamZXX`. -/
theorem indices_in_range_preserved_witness :
    (((QuantumCircuit.empty 2).add_gate (Example.incr 0)).add_gate
      (Example.incr 1)).indices_in_range ∧
    (add_diagonal_hamiltonian_rotation_gate Example.rationalOps Example.PauliRotation
      ((QuantumCircuit.empty 2).add_gate (Example.incr 0)) [] Example.hamZXX
      3).1.indices_in_range ∧
    (copy id ((QuantumCircuit.empty 2).add_gate (Example.incr 0))).indices_in_range :=
  have h := indices_in_range_preserved Example.rationalOps Example.PauliRotation id
    ((QuantumCircuit.empty 2).add_gate (Example.incr 0)) (Example.incr 1) Example.hamZXX
    (by unfold indices_in_range; decide) (by decide) (fun _ => rfl)
    (by
      intro pauli hp a q hq
      simp only [Example.hamZXX, List.mem_cons, List.mem_singleton, List.not_mem_nil,
        or_false] at hp
      rcases hp with rfl | rfl
      · simp only [Example.PauliRotation, QuantumGateBase.qubits, List.append_nil,
          List.mem_singleton] at hq
        subst hq
        decide
      · simp only [Example.PauliRotation, QuantumGateBase.qubits, List.append_nil,
          List.mem_cons, List.mem_singleton, List.not_mem_nil, or_false] at hq
        rcases hq with rfl | rfl <;> decide)
  ⟨h.2.1, h.2.2.2.2.2.2.2.1 [] 3, h.2.2.2.2.2.2.1⟩

/-- The gate loop of `calculate_depth` over a concatenation. -/
theorem depth_loop_append_list (A B : List (QuantumGateBase S)) (st : List Nat × Nat) :
    depth_loop (A ++ B) st = (depth_loop A st).bind (depth_loop B) := by
  induction A generalizing st with
  | nil => simp [depth_loop]
  | cons a A ih =>
    simp only [List.cons_append, depth_loop]
    cases depth_gate st a with
    | none => rfl
    | some s => exact ih s

/-- With all indices inside the vector, the gate loop of `calculate_depth`
makes no access outside it: it runs to the end and keeps the vector's length. -/
theorem depth_loop_defined (P : List (QuantumGateBase S)) (fs : List Nat) (t : Nat)
    (hq : ∀ g ∈ P, ∀ q ∈ g.qubits, q < fs.length) :
    ∃ fs1 t1, depth_loop P (fs, t) = some (fs1, t1) ∧ fs1.length = fs.length := by
  induction P generalizing fs t with
  | nil => exact ⟨fs, t, rfl, rfl⟩
  | cons g P ih =>
    obtain ⟨fs2, m, e, len2, -, -, -⟩ :=
      depth_gate_spec fs t g (hq g (List.mem_cons_self _ _))
    obtain ⟨fs1, t1, e1, len1⟩ := ih fs2 (max t ((m + 1) % UINT_MOD)) (by
      intro h hh q hqh
      rw [len2]
      exact hq h (List.mem_cons_of_mem _ hh) q hqh)
    exact ⟨fs1, t1, by simp [depth_loop, e, e1], by rw [len1, len2]⟩

/-- Two vectors of the same length with the same entries are equal. -/
theorem list_eq_of_getD (l1 l2 : List Nat) (hlen : l1.length = l2.length)
    (h : ∀ q : Nat, l1[q]?.getD 0 = l2[q]?.getD 0) : l1 = l2 := by
  apply List.ext_getElem?
  intro q
  by_cases hq : q < l1.length
  · have h2 : q < l2.length := by omega
    have h3 := h q
    rw [List.getElem?_eq_getElem hq, List.getElem?_eq_getElem h2] at h3
    rw [List.getElem?_eq_getElem hq, List.getElem?_eq_getElem h2]
    simpa using h3
  · rw [List.getElem?_eq_none (l := l1) (by omega), List.getElem?_eq_none (l := l2) (by omega)]

/-- The value read for a gate is determined by the counters on its qubits. -/
theorem max_read_unique (qs : List Nat) (f1 f2 : Nat → Nat) (m1 m2 : Nat)
    (hf : ∀ q ∈ qs, f1 q = f2 q)
    (a1 : ∀ q ∈ qs, f1 q ≤ m1) (b1 : m1 = 0 ∨ ∃ q ∈ qs, m1 = f1 q)
    (a2 : ∀ q ∈ qs, f2 q ≤ m2) (b2 : m2 = 0 ∨ ∃ q ∈ qs, m2 = f2 q) : m1 = m2 := by
  apply le_antisymm
  · rcases b1 with h | ⟨q, hq, h⟩
    · omega
    · rw [h, hf q hq]; exact a2 q hq
  · rcases b2 with h | ⟨q, hq, h⟩
    · omega
    · rw [h, ← hf q hq]; exact a1 q hq

/-- Two gates without a common qubit can be processed by `calculate_depth` in
either order: the counters and the running maximum come out the same. -/
theorem depth_gate_comm (fs : List Nat) (t : Nat) (g h : QuantumGateBase S)
    (hg : ∀ q ∈ g.qubits, q < fs.length) (hh : ∀ q ∈ h.qubits, q < fs.length)
    (hd : ¬ QuantumGateBase.shares g h) :
    (depth_gate (fs, t) g).bind (fun st => depth_gate st h)
      = (depth_gate (fs, t) h).bind (fun st => depth_gate st g) := by
  have hdis : ∀ q, q ∈ g.qubits → q ∈ h.qubits → False := fun q a b => hd ⟨q, a, b⟩
  obtain ⟨fg, mg, eg, leng, getg, ag, bg⟩ := depth_gate_spec fs t g hg
  obtain ⟨fh, mh, eh, lenh, geth, ah, bh⟩ := depth_gate_spec fs t h hh
  obtain ⟨fgh, mh2, egh, lengh, getgh, agh, bgh⟩ :=
    depth_gate_spec fg (max t ((mg + 1) % UINT_MOD)) h (by rw [leng]; exact hh)
  obtain ⟨fhg, mg2, ehg, lenhg, gethg, ahg, bhg⟩ :=
    depth_gate_spec fh (max t ((mh + 1) % UINT_MOD)) g (by rw [lenh]; exact hg)
  have e1 : mh2 = mh :=
    max_read_unique h.qubits (fun q => fg[q]?.getD 0) (fun q => fs[q]?.getD 0) mh2 mh
      (fun q hq => by
        show fg[q]?.getD 0 = fs[q]?.getD 0
        rw [getg q, if_neg (fun hqg => hdis q hqg hq)])
      agh bgh ah bh
  have e2 : mg2 = mg :=
    max_read_unique g.qubits (fun q => fh[q]?.getD 0) (fun q => fs[q]?.getD 0) mg2 mg
      (fun q hq => by
        show fh[q]?.getD 0 = fs[q]?.getD 0
        rw [geth q, if_neg (fun hqh => hdis q hq hqh)])
      ahg bhg ag bg
  subst e1 e2
  rw [eg, eh, Option.some_bind, Option.some_bind, egh, ehg]
  have hl : fgh = fhg := by
    apply list_eq_of_getD
    · rw [lengh, leng, lenhg, lenh]
    · intro q
      rw [getgh q, gethg q, getg q, geth q]
      by_cases h1 : q ∈ g.qubits <;> by_cases h2 : q ∈ h.qubits
      · exact (hdis q h1 h2).elim
      · simp [h1, h2]
      · simp [h1, h2]
      · simp [h1, h2]
  rw [hl, max_assoc, max_assoc, max_comm ((mh2 + 1) % UINT_MOD)]

/-- A list with `g` at position `p` and `h` at position `p + 1`, and the same
list with the two exchanged. -/
theorem split_at_pair {α : Type} (l : List α) (p : Nat) (g h : α)
    (hg : l[p]? = some g) (hh : l[p + 1]? = some h) :
    l = l.take p ++ g :: h :: l.drop (p + 2) ∧
    (l.set p h).set (p + 1) g = l.take p ++ h :: g :: l.drop (p + 2) := by
  obtain ⟨hp, hgp⟩ := List.getElem?_eq_some_iff.1 hg
  obtain ⟨hp1, hhp⟩ := List.getElem?_eq_some_iff.1 hh
  have e : l = l.take p ++ g :: h :: l.drop (p + 2) := by
    conv_lhs => rw [← List.take_append_drop p l]
    rw [List.drop_eq_getElem_cons hp, List.drop_eq_getElem_cons hp1, hgp, hhp]
  refine ⟨e, ?_⟩
  have hlen : (l.take p).length = p := List.length_take_of_le (by omega)
  conv_lhs => rw [e]
  rw [List.set_append_right _ _ (by omega), hlen, Nat.sub_self, List.set_cons_zero,
    List.set_append_right _ _ (by omega), hlen, Nat.add_sub_cancel_left, List.set_cons_succ,
    List.set_cons_zero]

/-- Claim C19. In a circuit with all indices below `qubit_count`, let the gates
at positions `p` and `p + 1` share no qubit. The circuit with these two gates
exchanged has the same `calculate_depth()` (which is defined), and after the
pair the loop of `calculate_depth` is in the same state in both circuits: the
same `filled_step` vector and the same running maximum. -/
theorem calculate_depth_swap_adjacent (c : QuantumCircuit S) (p : Nat)
    (g h : QuantumGateBase S) (hr : c.indices_in_range)
    (hg : c.gate_list[p]? = some g) (hh : c.gate_list[p + 1]? = some h)
    (hd : ¬ QuantumGateBase.shares g h) :
    calculate_depth { c with gate_list := (c.gate_list.set p h).set (p + 1) g }
      = c.calculate_depth ∧
    (∃ d, c.calculate_depth = some d) ∧
    depth_loop (((c.gate_list.set p h).set (p + 1) g).take (p + 2))
        (List.replicate c.qubit_count 0, 0)
      = depth_loop (c.gate_list.take (p + 2)) (List.replicate c.qubit_count 0, 0) ∧
    (∃ fs t, depth_loop (c.gate_list.take (p + 2)) (List.replicate c.qubit_count 0, 0)
      = some (fs, t)) := by
  obtain ⟨e1, e2⟩ := split_at_pair c.gate_list p g h hg hh
  have hp : p < c.gate_list.length := (List.getElem?_eq_some_iff.1 hg).1
  have hlen : (c.gate_list.take p).length = p := List.length_take_of_le (by omega)
  have hA : ∀ x ∈ c.gate_list.take p, ∀ q ∈ x.qubits, q < c.qubit_count :=
    fun x hx => hr x (List.mem_of_mem_take hx)
  have hgr : ∀ q ∈ g.qubits, q < c.qubit_count :=
    hr g (List.getElem?_mem hg)
  have hhr : ∀ q ∈ h.qubits, q < c.qubit_count :=
    hr h (List.getElem?_mem hh)
  obtain ⟨fs, t, eA, lenA⟩ :=
    depth_loop_defined (c.gate_list.take p) (List.replicate c.qubit_count 0) 0
      (by simpa using hA)
  rw [List.length_replicate] at lenA
  have hcomm := depth_gate_comm fs t g h (by rw [lenA]; exact hgr) (by rw [lenA]; exact hhr) hd
  have pair : ∀ (x y : QuantumGateBase S) (B : List (QuantumGateBase S)),
      depth_loop (c.gate_list.take p ++ x :: y :: B) (List.replicate c.qubit_count 0, 0)
        = ((depth_gate (fs, t) x).bind (fun st => depth_gate st y)).bind (depth_loop B) := by
    intro x y B
    rw [depth_loop_append_list, eA, Option.some_bind]
    simp only [depth_loop]
    cases depth_gate (fs, t) x with
    | none => rfl
    | some s1 =>
      simp only [Option.some_bind]
      cases depth_gate s1 y with
      | none => rfl
      | some s2 => rfl
  have tk : ∀ (x y : QuantumGateBase S),
      (c.gate_list.take p ++ x :: y :: c.gate_list.drop (p + 2)).take (p + 2)
        = c.gate_list.take p ++ x :: y :: [] := by
    intro x y
    rw [List.take_append_eq_append_take, hlen, List.take_of_length_le (by omega)]
    have : p + 2 - p = 2 := by omega
    rw [this]
    rfl
  have hdef : ∃ d, c.calculate_depth = some d := by
    obtain ⟨fs1, t1, e, -⟩ :=
      depth_loop_defined c.gate_list (List.replicate c.qubit_count 0) 0 (by simpa using hr)
    exact ⟨t1, by simp [calculate_depth, e]⟩
  refine ⟨?_, hdef, ?_, ?_⟩
  · unfold calculate_depth
    simp only []
    rw [e2]
    conv_rhs => rw [e1]
    rw [pair, pair, hcomm]
  · rw [e2, tk]
    conv_rhs => rw [e1, tk]
    rw [pair, pair, hcomm]
  · have hpre : ∀ x ∈ c.gate_list.take (p + 2), ∀ q ∈ x.qubits,
        q < (List.replicate c.qubit_count 0).length := by
      intro x hx
      simpa using hr x (List.mem_of_mem_take hx)
    obtain ⟨fs1, t1, e, -⟩ :=
      depth_loop_defined (c.gate_list.take (p + 2)) (List.replicate c.qubit_count 0) 0 hpre
    exact ⟨fs1, t1, e⟩

/-- Claim C19 on the sample circuit `chain3`, whose first two gates share no
qubit. -/
theorem calculate_depth_swap_adjacent_witness :
    calculate_depth { Example.chain3 with
        gate_list := (Example.chain3.gate_list.set 0 (Example.incr 2)).set (0 + 1)
          (Example.dbl 0 1) }
      = Example.chain3.calculate_depth ∧
    (∃ d, Example.chain3.calculate_depth = some d) ∧
    depth_loop (((Example.chain3.gate_list.set 0 (Example.incr 2)).set (0 + 1)
          (Example.dbl 0 1)).take (0 + 2))
        (List.replicate Example.chain3.qubit_count 0, 0)
      = depth_loop (Example.chain3.gate_list.take (0 + 2))
          (List.replicate Example.chain3.qubit_count 0, 0) ∧
    (∃ fs t, depth_loop (Example.chain3.gate_list.take (0 + 2))
        (List.replicate Example.chain3.qubit_count 0, 0) = some (fs, t)) :=
  calculate_depth_swap_adjacent Example.chain3 0 (Example.dbl 0 1) (Example.incr 2)
    (by unfold indices_in_range; decide) rfl rfl (by decide)

/-- A list of distinct indices below `n` has at most `n` entries. -/
theorem nodup_length_le (l : List Nat) (n : Nat) (hn : l.Nodup) (hl : ∀ x ∈ l, x < n) :
    l.length ≤ n := by
  have h1 : l.toFinset ⊆ Finset.range n := by
    intro x hx
    rw [List.mem_toFinset] at hx
    exact Finset.mem_range.2 (hl x hx)
  have h2 := Finset.card_le_card h1
  rw [List.toFinset_card_of_nodup hn, Finset.card_range] at h2
  exact h2

theorem UINT_MOD_eq : UINT_MOD = 4294967296 := by decide

theorem mod_succ_add (M v k : Nat) : ((v + 1) % M + k) % M = (v + (k + 1)) % M := by
  rw [Nat.add_mod, Nat.mod_mod, ← Nat.add_mod]
  congr 1
  omega

/-- The first loop of `to_string` when every access `gate_size_count[count - 1]`
is inside the vector: the loop runs to the end, the vector keeps its length,
`max_block_size` is the largest count, and entry `i` has been incremented
(modulo `2 ^ 32`) once per gate whose index `count - 1` is `i`. -/
theorem count_gate_sizes_spec (n : Nat) (P : List (QuantumGateBase S)) (gsc0 : List Nat)
    (M0 : Nat) (hlen : gsc0.length = n) (hP : ∀ g ∈ P, gate_size_index g < n) :
    ∃ gsc, count_gate_sizes P (gsc0, M0)
        = some (gsc, P.foldl (fun m g => max m (whole_qubit_index_count g)) M0) ∧
      gsc.length = n ∧
      (∀ i : Nat, gsc[i]?.getD 0 % UINT_MOD
        = (gsc0[i]?.getD 0 + P.countP (fun g => decide (gate_size_index g = i)))
          % UINT_MOD) ∧
      ((∀ i : Nat, gsc0[i]?.getD 0 < UINT_MOD) → ∀ i : Nat, gsc[i]?.getD 0 < UINT_MOD) := by
  induction P generalizing gsc0 M0 with
  | nil => exact ⟨gsc0, rfl, hlen, by simp, fun h => h⟩
  | cons g P ih =>
    have hidx : gate_size_index g < gsc0.length := by
      rw [hlen]; exact hP g (List.mem_cons_self _ _)
    obtain ⟨gsc, e, len, cnt, bnd⟩ :=
      ih (gsc0.set (gate_size_index g) ((gsc0[gate_size_index g] + 1) % UINT_MOD))
        (max M0 (whole_qubit_index_count g))
        (by rw [List.length_set]; exact hlen)
        (fun x hx => hP x (List.mem_cons_of_mem _ hx))
    refine ⟨gsc, ?_, len, ?_, ?_⟩
    · simp only [count_gate_sizes, List.getElem?_eq_getElem hidx, List.foldl_cons]
      exact e
    · intro i
      rw [cnt i, List.getElem?_set, List.countP_cons]
      by_cases hi : gate_size_index g = i
      · rw [if_pos hi, if_pos hidx, Option.getD_some, ← hi, List.getElem?_eq_getElem hidx,
          Option.getD_some]
        simp only [decide_True, if_true]
        exact mod_succ_add _ _ _
      · rw [if_neg hi]
        simp [hi]
    · intro h0
      apply bnd
      intro i
      rw [List.getElem?_set]
      by_cases hi : gate_size_index g = i
      · rw [if_pos hi, if_pos hidx, Option.getD_some]
        exact Nat.mod_lt _ (by rw [UINT_MOD_eq]; omega)
      · rw [if_neg hi]
        exact h0 i

/-- The second loop of `to_string` over indices inside the vector prints one
line per index. -/
theorem gate_size_lines_spec (gsc : List Nat) (l : List Nat) (hl : ∀ i ∈ l, i < gsc.length) :
    gate_size_lines gsc l = some (l.map (fun i => gate_size_line i (gsc[i]?.getD 0))) := by
  induction l with
  | nil => rfl
  | cons i l ih =>
    have hi : i < gsc.length := hl i (List.mem_cons_self _ _)
    simp only [gate_size_lines, List.getElem?_eq_getElem hi,
      ih (fun x hx => hl x (List.mem_cons_of_mem _ hx)), List.map_cons, Option.getD_some]

/-- For a gate touching between 1 and `n < 2 ^ 32` qubits, the `UINT` count of
`to_string` is the number of its qubits and the index used is one less. -/
theorem gate_size_index_eq (g : QuantumGateBase S) (n : Nat) (hn : n < UINT_MOD)
    (h1 : 1 ≤ g.qubits.length) (h2 : g.qubits.length ≤ n) :
    whole_qubit_index_count g = g.qubits.length ∧
    gate_size_index g = g.qubits.length - 1 := by
  have hw : whole_qubit_index_count g = g.qubits.length := by
    unfold whole_qubit_index_count QuantumGateBase.qubits
    rw [List.length_append]
    apply Nat.mod_eq_of_lt
    simp only [QuantumGateBase.qubits, List.length_append] at h2
    omega
  refine ⟨hw, ?_⟩
  unfold gate_size_index
  rw [hw]
  rw [UINT_MOD_eq] at hn ⊢
  omega

/-- The running maximum of the first loop of `to_string` stays below any bound
on its start value and on the counts. -/
theorem foldl_max_le (P : List (QuantumGateBase S)) (M0 n : Nat) (h0 : M0 ≤ n)
    (h : ∀ g ∈ P, whole_qubit_index_count g ≤ n) :
    P.foldl (fun m g => max m (whole_qubit_index_count g)) M0 ≤ n := by
  induction P generalizing M0 with
  | nil => exact h0
  | cons g P ih =>
    rw [List.foldl_cons]
    exact ih _ (max_le h0 (h g (List.mem_cons_self _ _)))
      (fun x hx => h x (List.mem_cons_of_mem _ hx))

/-- The report of `to_string` when the histogram accesses are inside the
vector and `calculate_depth` is defined. -/
theorem to_string_lines_spec (c : QuantumCircuit S) (d : Nat)
    (hd : c.calculate_depth = some d)
    (hidx : ∀ g ∈ c.gate_list, gate_size_index g < c.qubit_count)
    (hw : ∀ g ∈ c.gate_list, whole_qubit_index_count g ≤ c.qubit_count) :
    ∃ gsc, count_gate_sizes c.gate_list (List.replicate c.qubit_count 0, 0)
        = some (gsc, c.gate_list.foldl (fun m g => max m (whole_qubit_index_count g)) 0) ∧
      gsc.length = c.qubit_count ∧
      (∀ i : Nat, gsc[i]?.getD 0 % UINT_MOD
        = (c.gate_list.countP (fun g => decide (gate_size_index g = i))) % UINT_MOD) ∧
      (∀ i : Nat, gsc[i]?.getD 0 < UINT_MOD) ∧
      c.to_string_lines
        = some (["*** Quantum Circuit Info ***",
                 "# of qubit: " ++ toString c.qubit_count,
                 "# of step : " ++ toString d,
                 "# of gate : " ++ toString c.gate_list.length]
                ++ (List.range
                      (c.gate_list.foldl (fun m g => max m (whole_qubit_index_count g)) 0)).map
                    (fun i => gate_size_line i (gsc[i]?.getD 0))
                ++ ["Clifford  : " ++ (if c.is_Clifford then "yes" else "no"),
                    "Gaussian  : " ++ (if c.is_Gaussian then "yes" else "no"),
                    ""]) := by
  obtain ⟨gsc, e, len, cnt, bnd⟩ :=
    count_gate_sizes_spec c.qubit_count c.gate_list (List.replicate c.qubit_count 0) 0
      (by simp) hidx
  have hzero : ∀ i : Nat, (List.replicate c.qubit_count 0)[i]?.getD 0 = 0 := by
    intro i
    by_cases h : i < c.qubit_count <;> simp [List.getElem?_replicate, h]
  have hM := foldl_max_le c.gate_list 0 c.qubit_count (Nat.zero_le _) hw
  refine ⟨gsc, e, len, ?_, ?_, ?_⟩
  · intro i
    rw [cnt i, hzero i, Nat.zero_add]
  · apply bnd
    intro i
    rw [hzero i, UINT_MOD_eq]
    omega
  · have hl := gate_size_lines_spec gsc
      (List.range (c.gate_list.foldl (fun m g => max m (whole_qubit_index_count g)) 0))
      (by
        intro i hi
        rw [List.mem_range] at hi
        omega)
    simp only [to_string_lines, e, hd, hl]

/-- Claim C20. If `qubit_count` is a `UINT` and every gate touches at least one
qubit, only indices below `qubit_count`, and no index twice across its target
and control lists, then `1 ≤ arity ≤ qubit_count` for every gate, the index
`arity - 1` used by `to_string()` lies inside `gate_size_count`, and
`to_string()` runs without an access outside a vector. If all indices are
below `qubit_count`, `calculate_depth()` runs without an access outside
`filled_step`. -/
theorem vector_accesses_in_bounds (c : QuantumCircuit S) :
    (c.qubit_count < UINT_MOD →
      (∀ g ∈ c.gate_list,
        g.qubits ≠ [] ∧ (∀ q ∈ g.qubits, q < c.qubit_count) ∧ g.qubits.Nodup) →
      (∀ g ∈ c.gate_list,
        1 ≤ whole_qubit_index_count g ∧ whole_qubit_index_count g ≤ c.qubit_count ∧
        whole_qubit_index_count g
          = g.target_qubit_list.length + g.control_qubit_list.length ∧
        gate_size_index g = whole_qubit_index_count g - 1 ∧
        gate_size_index g < c.qubit_count) ∧
      (∃ st, count_gate_sizes c.gate_list (List.replicate c.qubit_count 0, 0) = some st ∧
        st.1.length = c.qubit_count ∧ st.2 ≤ c.qubit_count) ∧
      (∃ lines, c.to_string_lines = some lines) ∧
      (∃ str, c.to_string = some str)) ∧
    (c.indices_in_range → ∃ d, c.calculate_depth = some d) := by
  have hdepth : c.indices_in_range → ∃ d, c.calculate_depth = some d := by
    intro hr
    obtain ⟨fs1, t1, e, -⟩ :=
      depth_loop_defined c.gate_list (List.replicate c.qubit_count 0) 0 (by simpa using hr)
    exact ⟨t1, by simp [calculate_depth, e]⟩
  refine ⟨?_, hdepth⟩
  intro hn hg
  have hfacts : ∀ g ∈ c.gate_list,
      1 ≤ whole_qubit_index_count g ∧ whole_qubit_index_count g ≤ c.qubit_count ∧
      whole_qubit_index_count g
        = g.target_qubit_list.length + g.control_qubit_list.length ∧
      gate_size_index g = whole_qubit_index_count g - 1 ∧
      gate_size_index g < c.qubit_count := by
    intro g hmem
    obtain ⟨hne, hlt, hnd⟩ := hg g hmem
    have h1 : 1 ≤ g.qubits.length := List.length_pos.2 hne
    have h2 : g.qubits.length ≤ c.qubit_count := nodup_length_le _ _ hnd hlt
    obtain ⟨e1, e2⟩ := gate_size_index_eq g c.qubit_count hn h1 h2
    refine ⟨by omega, by omega, ?_, by omega, by omega⟩
    rw [e1]
    simp [QuantumGateBase.qubits]
  obtain ⟨d, hd⟩ := hdepth (fun g hmem => (hg g hmem).2.1)
  obtain ⟨gsc, e, len, -, -, el⟩ :=
    to_string_lines_spec c d hd (fun g hmem => (hfacts g hmem).2.2.2.2)
      (fun g hmem => (hfacts g hmem).2.1)
  refine ⟨hfacts, ⟨_, e, len, ?_⟩, ⟨_, el⟩, ⟨_, by rw [to_string, el]; rfl⟩⟩
  exact foldl_max_le c.gate_list 0 c.qubit_count (Nat.zero_le _)
    (fun g hmem => (hfacts g hmem).2.1)

/-- Claim C20 on the sample circuit `chain3`. -/
theorem vector_accesses_in_bounds_witness :
    ((∀ g ∈ Example.chain3.gate_list,
        1 ≤ whole_qubit_index_count g ∧
        whole_qubit_index_count g ≤ Example.chain3.qubit_count ∧
        whole_qubit_index_count g
          = g.target_qubit_list.length + g.control_qubit_list.length ∧
        gate_size_index g = whole_qubit_index_count g - 1 ∧
        gate_size_index g < Example.chain3.qubit_count) ∧
      (∃ st, count_gate_sizes Example.chain3.gate_list
          (List.replicate Example.chain3.qubit_count 0, 0) = some st ∧
        st.1.length = Example.chain3.qubit_count ∧ st.2 ≤ Example.chain3.qubit_count) ∧
      (∃ lines, Example.chain3.to_string_lines = some lines) ∧
      (∃ str, Example.chain3.to_string = some str)) ∧
    (∃ d, Example.chain3.calculate_depth = some d) :=
  ⟨(vector_accesses_in_bounds Example.chain3).1 (by decide) (by decide),
   (vector_accesses_in_bounds Example.chain3).2 (by unfold indices_in_range; decide)⟩

/-- The running maximum of the first loop of `to_string` is an upper bound of
the counts and is attained, by the start value or by a gate. -/
theorem foldl_max_spec (P : List (QuantumGateBase S)) (M0 : Nat) :
    M0 ≤ P.foldl (fun m g => max m (whole_qubit_index_count g)) M0 ∧
    (∀ g ∈ P, whole_qubit_index_count g
      ≤ P.foldl (fun m g => max m (whole_qubit_index_count g)) M0) ∧
    (P.foldl (fun m g => max m (whole_qubit_index_count g)) M0 = M0 ∨
      ∃ g ∈ P, whole_qubit_index_count g
        = P.foldl (fun m g => max m (whole_qubit_index_count g)) M0) := by
  induction P generalizing M0 with
  | nil => exact ⟨le_refl _, by simp, Or.inl rfl⟩
  | cons a P ih =>
    rw [List.foldl_cons]
    obtain ⟨h1, h2, h3⟩ := ih (max M0 (whole_qubit_index_count a))
    refine ⟨le_trans (le_max_left _ _) h1, ?_, ?_⟩
    · intro g hg
      rcases List.mem_cons.1 hg with rfl | hg
      · exact le_trans (le_max_right _ _) h1
      · exact h2 g hg
    · rcases h3 with h | ⟨g, hg, h⟩
      · rcases le_total (whole_qubit_index_count a) M0 with hle | hle
        · left
          rw [h, max_eq_left hle]
        · right
          exact ⟨a, List.mem_cons_self _ _, by rw [h, max_eq_right hle]⟩
      · exact Or.inr ⟨g, List.mem_cons_of_mem _ hg, h⟩

/-- Exactly one index below `M` equals a given `a < M`. -/
theorem sum_indicator_range (a M : Nat) :
    ((List.range M).map (fun i => if a = i then 1 else 0)).sum = if a < M then 1 else 0 := by
  induction M with
  | zero => simp
  | succ M ih =>
    rw [List.range_succ, List.map_append, List.sum_append, ih]
    simp only [List.map_cons, List.map_nil, List.sum_cons, List.sum_nil, Nat.add_zero]
    by_cases h1 : a < M
    · have h2 : ¬ a = M := by omega
      have h3 : a < M + 1 := by omega
      simp [h1, h2, h3]
    · by_cases h2 : a = M
      · simp [h2]
      · have h3 : ¬ a < M + 1 := by omega
        simp [h1, h2, h3]

/-- The per-size counts over the sizes `1, ..., M` add up to the number of
elements when every size lies between 1 and `M`. -/
theorem sum_countP_sizes {α : Type} (f : α → Nat) (P : List α) (M : Nat)
    (h : ∀ g ∈ P, 1 ≤ f g ∧ f g ≤ M) :
    ((List.range M).map (fun i => P.countP (fun g => decide (f g = i + 1)))).sum
      = P.length := by
  induction P with
  | nil => simp
  | cons a P ih =>
    have ha := h a (List.mem_cons_self _ _)
    have e : (fun i => (a :: P).countP (fun g => decide (f g = i + 1)))
        = (fun i => P.countP (fun g => decide (f g = i + 1))
            + (if f a - 1 = i then 1 else 0)) := by
      funext i
      rw [List.countP_cons]
      congr 1
      by_cases hi : f a = i + 1
      · have : f a - 1 = i := by omega
        simp [hi, this]
      · have : ¬ f a - 1 = i := by omega
        simp [hi, this]
    rw [e, List.sum_map_add, ih (fun g hg => h g (List.mem_cons_of_mem _ hg)),
      sum_indicator_range, if_pos (by omega), List.length_cons]

/-- Claim C17. For a circuit whose `qubit_count` and gate count are `UINT`
values, with all indices in range and every gate of arity (number of targets
plus number of controls) between 1 and `qubit_count`, `to_string()` writes, in
this order: the banner, the qubit count, the depth returned by
`calculate_depth()`, the number of gates, then for `k = 1, ..., M` (`M` the
largest arity present, no line for the empty circuit) the number of gates of
arity `k`, then `Clifford` and `Gaussian` with `yes` or `no` according to
`is_Clifford()` and `is_Gaussian()`, then an empty line; the per-arity counts
add up to the number of gates. The string returned by `to_string()` is exactly
these lines, each followed by a line break. The circuit is an argument of the
function and is not changed. -/
theorem to_string_report (c : QuantumCircuit S) (hn : c.qubit_count < UINT_MOD)
    (hlen : c.gate_list.length < UINT_MOD) (hr : c.indices_in_range)
    (ha : ∀ g ∈ c.gate_list,
      1 ≤ g.target_qubit_list.length + g.control_qubit_list.length ∧
      g.target_qubit_list.length + g.control_qubit_list.length ≤ c.qubit_count) :
    ∃ d M,
      c.calculate_depth = some d ∧
      (∀ g ∈ c.gate_list,
        g.target_qubit_list.length + g.control_qubit_list.length ≤ M) ∧
      (c.gate_list = [] → M = 0) ∧
      (c.gate_list ≠ [] → ∃ g ∈ c.gate_list,
        g.target_qubit_list.length + g.control_qubit_list.length = M) ∧
      c.to_string_lines
        = some (["*** Quantum Circuit Info ***",
                 "# of qubit: " ++ toString c.qubit_count,
                 "# of step : " ++ toString d,
                 "# of gate : " ++ toString c.gate_list.length]
                ++ (List.range M).map (fun i =>
                    "# of " ++ toString (i + 1) ++ " qubit gate: "
                      ++ toString (c.gate_list.countP (fun g => decide
                          (g.target_qubit_list.length + g.control_qubit_list.length
                            = i + 1))))
                ++ ["Clifford  : " ++ (if c.is_Clifford then "yes" else "no"),
                    "Gaussian  : " ++ (if c.is_Gaussian then "yes" else "no"),
                    ""]) ∧
      ((List.range M).map (fun i => c.gate_list.countP (fun g => decide
          (g.target_qubit_list.length + g.control_qubit_list.length = i + 1)))).sum
        = c.gate_list.length ∧
      c.to_string
        = some (String.join
            ((["*** Quantum Circuit Info ***",
               "# of qubit: " ++ toString c.qubit_count,
               "# of step : " ++ toString d,
               "# of gate : " ++ toString c.gate_list.length]
              ++ (List.range M).map (fun i =>
                  "# of " ++ toString (i + 1) ++ " qubit gate: "
                    ++ toString (c.gate_list.countP (fun g => decide
                        (g.target_qubit_list.length + g.control_qubit_list.length
                          = i + 1))))
              ++ ["Clifford  : " ++ (if c.is_Clifford then "yes" else "no"),
                  "Gaussian  : " ++ (if c.is_Gaussian then "yes" else "no"),
                  ""]).map (fun l => l ++ "\n"))) := by
  have hq : ∀ g : QuantumGateBase S,
      g.qubits.length = g.target_qubit_list.length + g.control_qubit_list.length := by
    intro g
    simp [QuantumGateBase.qubits]
  have hfacts : ∀ g ∈ c.gate_list,
      whole_qubit_index_count g
        = g.target_qubit_list.length + g.control_qubit_list.length ∧
      gate_size_index g = g.target_qubit_list.length + g.control_qubit_list.length - 1 := by
    intro g hg
    obtain ⟨h1, h2⟩ := ha g hg
    have := gate_size_index_eq g c.qubit_count hn (by rw [hq]; exact h1) (by rw [hq]; exact h2)
    rw [hq] at this
    exact this
  obtain ⟨fs1, d, ed, -⟩ :=
    depth_loop_defined c.gate_list (List.replicate c.qubit_count 0) 0 (by simpa using hr)
  have hd : c.calculate_depth = some d := by simp [calculate_depth, ed]
  obtain ⟨gsc, -, -, cnt, bnd, el⟩ :=
    to_string_lines_spec c d hd
      (fun g hg => by
        rw [(hfacts g hg).2]
        have := ha g hg
        omega)
      (fun g hg => by
        rw [(hfacts g hg).1]
        exact (ha g hg).2)
  obtain ⟨-, m2, m3⟩ := foldl_max_spec c.gate_list 0
  have hcount : ∀ i : Nat, gsc[i]?.getD 0
      = c.gate_list.countP (fun g => decide
          (g.target_qubit_list.length + g.control_qubit_list.length = i + 1)) := by
    intro i
    have e1 : c.gate_list.countP (fun g => decide (gate_size_index g = i))
        = c.gate_list.countP (fun g => decide
          (g.target_qubit_list.length + g.control_qubit_list.length = i + 1)) := by
      apply List.countP_congr
      intro g hg
      rw [(hfacts g hg).2]
      have := ha g hg
      simp only [decide_eq_true_eq]
      omega
    have h1 := cnt i
    have h2 := bnd i
    have h3 : c.gate_list.countP (fun g => decide (gate_size_index g = i))
        ≤ c.gate_list.length := List.countP_le_length _
    rw [← e1]
    rw [UINT_MOD_eq] at h1 h2 hlen
    omega
  have hlines : c.to_string_lines
      = some (["*** Quantum Circuit Info ***",
               "# of qubit: " ++ toString c.qubit_count,
               "# of step : " ++ toString d,
               "# of gate : " ++ toString c.gate_list.length]
              ++ (List.range
                    (c.gate_list.foldl (fun m g => max m (whole_qubit_index_count g)) 0)).map
                  (fun i =>
                    "# of " ++ toString (i + 1) ++ " qubit gate: "
                      ++ toString (c.gate_list.countP (fun g => decide
                          (g.target_qubit_list.length + g.control_qubit_list.length
                            = i + 1))))
              ++ ["Clifford  : " ++ (if c.is_Clifford then "yes" else "no"),
                  "Gaussian  : " ++ (if c.is_Gaussian then "yes" else "no"),
                  ""]) := by
    rw [el]
    congr 3
    apply List.map_congr_left
    intro i hi
    rw [List.mem_range] at hi
    have hM := foldl_max_le c.gate_list 0 c.qubit_count (Nat.zero_le _)
      (fun g hg => by rw [(hfacts g hg).1]; exact (ha g hg).2)
    have hi1 : (i + 1) % UINT_MOD = i + 1 := Nat.mod_eq_of_lt (by omega)
    rw [gate_size_line, hi1, hcount i]
  refine ⟨d, c.gate_list.foldl (fun m g => max m (whole_qubit_index_count g)) 0, hd,
    ?_, ?_, ?_, hlines, ?_, ?_⟩
  · intro g hg
    rw [← (hfacts g hg).1]
    exact m2 g hg
  · intro h
    rw [h]
    rfl
  · intro hne
    rcases m3 with h | ⟨g, hg, h⟩
    · obtain ⟨g, hg⟩ := List.exists_mem_of_ne_nil _ hne
      have := m2 g hg
      have := (ha g hg).1
      rw [(hfacts g hg).1] at *
      omega
    · exact ⟨g, hg, by rw [← (hfacts g hg).1]; exact h⟩
  · apply sum_countP_sizes
        (fun g : QuantumGateBase S =>
          g.target_qubit_list.length + g.control_qubit_list.length)
    intro g hg
    refine ⟨(ha g hg).1, ?_⟩
    rw [← (hfacts g hg).1]
    exact m2 g hg
  · rw [to_string, hlines]
    rfl

/-- Claim C17 on the sample circuit `chain3`: three qubits, depth 2, three
gates, one of arity 1 and two of arity 2, neither Clifford nor Gaussian. -/
theorem to_string_report_witness :
    Example.chain3.to_string
      = some ("*** Quantum Circuit Info ***\n# of qubit: 3\n# of step : 2\n"
          ++ "# of gate : 3\n# of 1 qubit gate: 1\n# of 2 qubit gate: 2\n"
          ++ "Clifford  : no\nGaussian  : no\n\n") ∧
    Example.chain3.to_string_lines
      = some ["*** Quantum Circuit Info ***", "# of qubit: 3", "# of step : 2",
              "# of gate : 3", "# of 1 qubit gate: 1", "# of 2 qubit gate: 2",
              "Clifford  : no", "Gaussian  : no", ""] ∧
    ∃ d M,
      Example.chain3.calculate_depth = some d ∧
      (∀ g ∈ Example.chain3.gate_list,
        g.target_qubit_list.length + g.control_qubit_list.length ≤ M) ∧
      (Example.chain3.gate_list = [] → M = 0) ∧
      (Example.chain3.gate_list ≠ [] → ∃ g ∈ Example.chain3.gate_list,
        g.target_qubit_list.length + g.control_qubit_list.length = M) ∧
      Example.chain3.to_string_lines
        = some (["*** Quantum Circuit Info ***",
                 "# of qubit: " ++ toString Example.chain3.qubit_count,
                 "# of step : " ++ toString d,
                 "# of gate : " ++ toString Example.chain3.gate_list.length]
                ++ (List.range M).map (fun i =>
                    "# of " ++ toString (i + 1) ++ " qubit gate: "
                      ++ toString (Example.chain3.gate_list.countP (fun g => decide
                          (g.target_qubit_list.length + g.control_qubit_list.length
                            = i + 1))))
                ++ ["Clifford  : " ++ (if Example.chain3.is_Clifford then "yes" else "no"),
                    "Gaussian  : " ++ (if Example.chain3.is_Gaussian then "yes" else "no"),
                    ""]) ∧
      ((List.range M).map (fun i => Example.chain3.gate_list.countP (fun g => decide
          (g.target_qubit_list.length + g.control_qubit_list.length = i + 1)))).sum
        = Example.chain3.gate_list.length ∧
      Example.chain3.to_string
        = some (String.join
            ((["*** Quantum Circuit Info ***",
               "# of qubit: " ++ toString Example.chain3.qubit_count,
               "# of step : " ++ toString d,
               "# of gate : " ++ toString Example.chain3.gate_list.length]
              ++ (List.range M).map (fun i =>
                  "# of " ++ toString (i + 1) ++ " qubit gate: "
                    ++ toString (Example.chain3.gate_list.countP (fun g => decide
                        (g.target_qubit_list.length + g.control_qubit_list.length
                          = i + 1))))
              ++ ["Clifford  : " ++ (if Example.chain3.is_Clifford then "yes" else "no"),
                  "Gaussian  : " ++ (if Example.chain3.is_Gaussian then "yes" else "no"),
                  ""]).map (fun l => l ++ "\n"))) :=
  ⟨by decide, by decide,
   to_string_report Example.chain3 (by decide) (by decide)
     (by unfold indices_in_range; decide) (by decide)⟩

end QuantumCircuit

end Qulacs
